import Mathlib

/-!
# Verification of the curve-sweep graph core (`src/2geom/toys/sweep-graph.cpp`)

This file gives a shallow embedding, over the rationals, of the sweep-graph
core: monotonic decomposition (`mono_splits` / `process_splits`), the
`Section` data type and its splitting protocol, the context-order comparator
(`SectionSorter`), the winding accumulation, the vertex registry
(`find_vertex`) and the main event loop (`sweep_graph`), together with
theorems settling the specification claims about them.

Floating-point `double` values are modelled as `ℚ`; the external curve
collaborators (evaluation, roots, tangents, monotone intersection) are
modelled as oracle functions bundled in an environment, exactly as the spec
treats them (opaque black boxes).  The tolerance `EPSILON` used by
`are_near` lives in a header that is not part of the repository snapshot, so
it is kept as an explicit parameter `ε` throughout.
-/

set_option maxHeartbeats 1000000

namespace SweepGraph

/-- Coordinate axes, modelling `Geom::Dim2` (`X = 0`, `Y = 1`). -/
inductive Dim where
  | X : Dim
  | Y : Dim
deriving DecidableEq, Repr, Inhabited

/-- The other axis, modelling the C++ expression `1 - dim`. -/
def Dim.other : Dim → Dim
  | .X => .Y
  | .Y => .X

/-- A plane point with rational coordinates, modelling `Geom::Point`. -/
structure Point where
  x : ℚ
  y : ℚ
deriving DecidableEq, Repr, Inhabited

/-- Coordinate access `p[d]`. -/
def Point.get (p : Point) : Dim → ℚ
  | .X => p.x
  | .Y => p.y

/-- Point negation, used when a unit tangent points backwards. -/
def Point.neg (p : Point) : Point := ⟨-p.x, -p.y⟩

/-- Modelled from the spec: scalar tolerance equality
`Geom::are_near(Coord, Coord, eps)` (the header defining it is not part of
the snapshot); two coordinates are near when they differ by at most the
fixed tolerance, `|a - b| ≤ ε`, spelled as a two-sided inequality. -/
def AreNear (ε a b : ℚ) : Prop := -ε ≤ a - b ∧ a - b ≤ ε

instance (ε a b : ℚ) : Decidable (AreNear ε a b) :=
  inferInstanceAs (Decidable (_ ∧ _))

theorem areNear_iff_abs (ε a b : ℚ) : AreNear ε a b ↔ |a - b| ≤ ε := by
  rw [AreNear, abs_le, and_comm]

/-- Modelled from the spec: point tolerance equality
`Geom::are_near(Point, Point, eps)` (header not in the snapshot); two points
are the same physical point when both coordinates agree within tolerance. -/
def AreNearPoint (ε : ℚ) (p q : Point) : Prop :=
  AreNear ε p.x q.x ∧ AreNear ε p.y q.y

instance (ε : ℚ) (p q : Point) : Decidable (AreNearPoint ε p q) :=
  inferInstanceAs (Decidable (_ ∧ _))

/-- Source `lexo_point(a, b, d)`: lexicographic strict order on points, first by
the coordinate along `d`, then by the other coordinate. -/
def LexoPoint (a b : Point) : Dim → Prop
  | .Y => a.y < b.y ∨ (a.y = b.y ∧ a.x < b.x)
  | .X => a.x < b.x ∨ (a.x = b.x ∧ a.y < b.y)

instance (a b : Point) (d : Dim) : Decidable (LexoPoint a b d) := by
  cases d <;> exact inferInstanceAs (Decidable (_ ∨ _))

/-- A closed interval with ordered endpoints, modelling `Geom::Interval`. -/
structure Iv where
  lo : ℚ
  hi : ℚ
deriving DecidableEq, Repr, Inhabited

/-- The ordering constructor `Interval(a, b)`. -/
def mkIv (a b : ℚ) : Iv := ⟨min a b, max a b⟩

/-- Source `Interval::contains`. -/
def Iv.contains (i : Iv) (v : ℚ) : Prop := i.lo ≤ v ∧ v ≤ i.hi

instance (i : Iv) (v : ℚ) : Decidable (i.contains v) :=
  inferInstanceAs (Decidable (_ ∧ _))

/-- Source `Interval::intersects`: the two closed intervals meet. -/
def Iv.intersects (i j : Iv) : Prop := i.lo ≤ j.hi ∧ j.lo ≤ i.hi

instance (i j : Iv) : Decidable (i.intersects j) :=
  inferInstanceAs (Decidable (_ ∧ _))

/-- Source `CurveIx`: an opaque curve handle (path index, segment index). -/
structure CurveIx where
  path : ℕ
  ix : ℕ
deriving DecidableEq, Repr, Inhabited

/-- A curve segment as the sweep consumes it: the external collaborator
operations of spec §6, bundled as oracle functions.  `derivRoots dd` stands
for `derivative()->roots(0, dd)`. -/
structure Curve where
  pointAt : ℚ → Point
  rootsAt : ℚ → Dim → List ℚ
  unitTangentAt : ℚ → Point
  derivRoots : Dim → List ℚ

instance : Inhabited Curve :=
  ⟨⟨fun _ => default, fun _ _ => [], fun _ => default, fun _ => []⟩⟩

/-- The curve store (`std::vector<Path>`) plus the external
`mono_intersect` collaborator, keyed by curve handles and the parameter
intervals passed at the call site. -/
structure Env where
  paths : List (List Curve)
  monoIntersect : CurveIx → Iv → CurveIx → Iv → List (ℚ × ℚ)

/-- Source `CurveIx::get(ps)`, i.e. `ps[path][ix]`. -/
def Env.curve (env : Env) (c : CurveIx) : Curve :=
  (env.paths.getD c.path []).getD c.ix default

/-- Source `Section`: a monotonic sub-interval `[f, t]` of one curve segment with
its endpoints and (once finished) a per-path winding vector. -/
structure Section where
  curve : CurveIx
  f : ℚ
  t : ℚ
  fp : Point
  tp : Point
  windings : List ℤ
deriving DecidableEq, Repr, Inhabited

/-- The `Section` constructor: evaluates both endpoints and swaps `f`/`t`
(and `fp`/`tp`) so that `fp` lexicographically precedes `tp` along `d`. -/
def mkSection (c : Curve) (d : Dim) (cix : CurveIx) (fd td : ℚ) : Section :=
  let fp := c.pointAt fd
  let tp := c.pointAt td
  if LexoPoint tp fp d then ⟨cix, td, fd, tp, fp, []⟩ else ⟨cix, fd, td, fp, tp, []⟩

/-- Source `Section::set_to`: move the trailing end forward to parameter `ti`.
The source asserts `tp[d] >= fp[d]`; an assertion failure is modelled as
`none`. -/
def setTo (c : Curve) (d : Dim) (s : Section) (ti : ℚ) : Option Section :=
  let tp := c.pointAt ti
  if s.fp.get d ≤ tp.get d then some { s with t := ti, tp := tp } else none

/-- The extent of a section's bounding box along axis `dd`
(`Rect(fp, tp)[dd]`). -/
def Section.bboxIv (s : Section) (dd : Dim) : Iv := mkIv (s.fp.get dd) (s.tp.get dd)

/-! ## `process_splits` and monotonic decomposition -/

/-- The loop of `std::unique` with the `are_near` predicate: drop every
element near the most recently kept one. -/
def uniqueNearGo (ε : ℚ) : ℚ → List ℚ → List ℚ
  | _, [] => []
  | last, y :: ys =>
      if AreNear ε last y then uniqueNearGo ε last ys else y :: uniqueNearGo ε y ys

/-- Source `std::unique(splits, NearPredicate)`: keep the first element of every
run of tolerance-equivalent values. -/
def uniqueNear (ε : ℚ) : List ℚ → List ℚ
  | [] => []
  | x :: xs => x :: uniqueNearGo ε x xs

/-- The trailing trim loop of `process_splits`:
`while(!splits.empty() && splits.back() != t) splits.erase(end - 1)`. -/
def trimBack (t : ℚ) (l : List ℚ) : List ℚ :=
  (l.reverse.dropWhile (fun x => decide (x ≠ t))).reverse

/-- Source `process_splits(splits, f, t)`: append `f` and `t`, sort ascending,
uniqueify within tolerance, reverse when `f > t`, then erase leading
entries different from `f` and trailing entries different from `t`. -/
def processSplits (ε : ℚ) (splits : List ℚ) (f t : ℚ) : List ℚ :=
  let l1 := splits ++ [f, t]
  let l2 := List.insertionSort (fun a b => a ≤ b) l1
  let l3 := uniqueNear ε l2
  let l4 := if f > t then l3.reverse else l3
  let l5 := l4.dropWhile (fun x => decide (x ≠ f))
  trimBack t l5

/-- Source `mono_splits(c)`: cut parameters of `c`, from the roots of its
derivative in both coordinates together with 0 and 1. -/
def monoSplits (ε : ℚ) (c : Curve) : List ℚ :=
  processSplits ε (c.derivRoots .X ++ c.derivRoots .Y) 0 1

/-- One `Section` per consecutive pair of cut values (the inner loops of
`mono_sections` and `split_section`). -/
def pieces (c : Curve) (d : Dim) (cix : CurveIx) : List ℚ → List Section
  | a :: b :: rest => mkSection c d cix a b :: pieces c d cix (b :: rest)
  | _ => []

/-- Source `mono_sections(ps)`: the initial monotonic sections of every curve of
every path.  The source constructs these with axis `X` regardless of the
sweep axis argument of `sweep_graph`. -/
def monoSections (ε : ℚ) (env : Env) : List Section :=
  (env.paths.enum.map (fun pi =>
    (pi.2.enum.map (fun ci =>
      pieces ci.2 Dim.X ⟨pi.1, ci.1⟩ (monoSplits ε ci.2))).flatten)).flatten

/-- Source `split_section(s, ps, cuts, d)`: clean the cut set, mutate `s` to end
at the second cleaned value, and return the remaining pieces.  The source
reads `cuts[1]` unconditionally; when the cleaned sequence has fewer than
two entries that read is out of bounds, modelled (like the `set_to`
assertion) as `none`. -/
def splitSection (env : Env) (ε : ℚ) (d : Dim) (s : Section) (cuts : List ℚ) :
    Option (Section × List Section) :=
  match processSplits ε cuts s.f s.t with
  | _ :: c1 :: rest =>
      let c := env.curve s.curve
      match setTo c d s c1 with
      | some s1 => some (s1, pieces c d s.curve (c1 :: rest))
      | none => none
  | _ => none

/-! ## The context-order comparator (`SectionSorter`) -/

/-- Source `section_root(s, ps, v, d)`: the first root of `s`'s curve at value `v`
in coordinate `d` that lies inside `Interval(s.f, s.t)`, or `-1`. -/
def sectionRoot (env : Env) (s : Section) (v : ℚ) (d : Dim) : ℚ :=
  match ((env.curve s.curve).rootsAt v d).find?
      (fun r => decide ((mkIv s.f s.t).contains r)) with
  | some r => r
  | none => -1

/-- Source `SectionSorter::section_order(a, at, b, bt)`: compare the two sections
at the probe parameters `ta`, `tb`, with endpoint-side disambiguation and a
unit-tangent tie-break (tangents with negative component along the other
axis are negated first; the tangents are taken at `a.f` and `b.f`). -/
def sectionOrder (env : Env) (ε : ℚ) (dim : Dim) (a : Section) (ta : ℚ)
    (b : Section) (tb : ℚ) : Bool :=
  let ap := (env.curve a.curve).pointAt ta
  let bp := (env.curve b.curve).pointAt tb
  if AreNear ε (ap.get dim) (bp.get dim) then
    if a.tp.get dim < ap.get dim ∧ ap.get dim < b.tp.get dim then true
    else if ap.get dim < a.tp.get dim ∧ b.tp.get dim < ap.get dim then false
    else
      let ad := (env.curve a.curve).unitTangentAt a.f
      let bd := (env.curve b.curve).unitTangentAt b.f
      let ad := if ad.get dim.other < 0 then ad.neg else ad
      let bd := if bd.get dim.other < 0 then bd.neg else bd
      decide (ad.get dim < bd.get dim)
  else decide (ap.get dim < bp.get dim)

/-- The probe parameter used when two sections lead off from coincident
sweep positions: `a.f > a.t ? a.f - 0.01 : a.f + 0.01`. -/
def probeParam (s : Section) : ℚ := if s.f > s.t then s.f - 1 / 100 else s.f + 1 / 100

/-- Source `SectionSorter::operator()(a, b)` with ordering axis `dim` (the sweep
engine instantiates `dim` with the axis perpendicular to the sweep).  The
`&a == &b` pointer self-comparison guard of the source is dropped: the
sweep only ever compares distinct objects. -/
def sectionCompare (env : Env) (ε : ℚ) (dim : Dim) (a b : Section) : Bool :=
  if (a.bboxIv dim).hi ≤ (b.bboxIv dim).lo then true
  else if (b.bboxIv dim).hi ≤ (a.bboxIv dim).lo then false
  else if (a.bboxIv dim.other).intersects (b.bboxIv dim.other) then
    if AreNear ε (a.fp.get dim.other) (b.fp.get dim.other) then
      sectionOrder env ε dim a (probeParam a) b (probeParam b)
    else if a.fp.get dim.other < b.fp.get dim.other then
      let ta := sectionRoot env a (b.fp.get dim.other) dim.other
      let ta := if ta = -1 then (a.t + a.f) / 2 else ta
      sectionOrder env ε dim a ta b b.f
    else
      let tb := sectionRoot env b (a.fp.get dim.other) dim.other
      let tb := if tb = -1 then (b.t + b.f) / 2 else tb
      sectionOrder env ε dim a a.f b tb
  else decide (LexoPoint a.fp b.fp dim)

/-! ## Vertices, edges and winding accumulation -/

/-- Source `Edge`: a finished-section index and the opposite vertex index.  The
source names the first field `section`, a reserved word in Lean. -/
structure Edge where
  sectionIx : ℕ
  other : ℕ
deriving DecidableEq, Repr, Inhabited

/-- Source `Vertex`: entering and exiting edges plus the representative point. -/
structure Vertex where
  enters : List Edge
  exits : List Edge
  avg : Point
deriving DecidableEq, Repr, Inhabited

/-- Source `Graph`: the output aggregate. -/
structure Graph where
  vertices : List Vertex
  sections : List Section
deriving DecidableEq, Repr, Inhabited

/-- Source `find_vertex(vertices, p)`: linear scan for a vertex near `p`; append a
fresh one when the scan fails.  Returns the index and the updated store. -/
def findVertex (ε : ℚ) (vs : List Vertex) (p : Point) : ℕ × List Vertex :=
  match vs.findIdx? (fun v => decide (AreNearPoint ε v.avg p)) with
  | some i => (i, vs)
  | none => (vs.length, vs ++ [⟨[], [], p⟩])

/-- Source `windings.resize(k + 1)` when `k >= windings.size()` (new entries are
value-initialised to 0). -/
def windResize (w : List ℤ) (k : ℕ) : List ℤ :=
  if w.length ≤ k then w ++ List.replicate (k + 1 - w.length) 0 else w

/-- One iteration of the winding loop of `sweep_graph` (source lines
307-313) at context position `j`: skip sections with equal `fp[X]` and
`tp[X]`, increment `windings[k]` (`k` the path index) when `f < t`, and
decrement `windings[j]` — the *context* index, as written in the source —
when `f > t`.  The decrementing write is out of bounds in C++ whenever
`j ≥ windings.size()`; `List.set` models it as a no-op there. -/
def windStep (ctx : List Section) (j : ℕ) (w : List ℤ) : List ℤ :=
  let sj := ctx.getD j default
  let k := sj.curve.path
  let w1 := windResize w k
  if sj.fp.x = sj.tp.x then w1
  else
    let w2 := if sj.f < sj.t then w1.set k (w1.getD k 0 + 1) else w1
    if sj.f > sj.t then w2.set j (w2.getD j 0 - 1) else w2

/-- The winding loop `for(j = 0; j < i; j++)`, applied in ascending order
of `j`. -/
def windLoop (ctx : List Section) : ℕ → List ℤ → List ℤ
  | 0, w => w
  | j + 1, w => windStep ctx j (windLoop ctx j w)

/-- The condition under which an active section is finished (source line
304): its trailing point's `X` coordinate — hardcoded `X`, not the sweep
axis `d` — is below or near `lim`. -/
def FinishCond (ε : ℚ) (s : Section) (lim : ℚ) : Prop :=
  s.tp.x < lim ∨ AreNear ε s.tp.x lim

instance (ε : ℚ) (s : Section) (lim : ℚ) : Decidable (FinishCond ε s lim) :=
  inferInstanceAs (Decidable (_ ∨ _))

/-- The state threaded through the finishing pass: active context, start
vertex indices of the context members, vertex store, finished-section
output and the reused winding scratch vector. -/
structure FinSt where
  ctx : List Section
  vix : List ℕ
  vs : List Vertex
  secs : List Section
  w : List ℤ
deriving DecidableEq, Repr, Inhabited

/-- Append an exit edge to a vertex. -/
def addExit (v : Vertex) (e : Edge) : Vertex := { v with exits := v.exits ++ [e] }

/-- Append an entering edge to a vertex. -/
def addEnter (v : Vertex) (e : Edge) : Vertex := { v with enters := v.enters ++ [e] }

/-- The body of the finishing pass at context position `i` (source lines
303-332).  When the section is finished: compute its windings, find or
create the trailing vertex, and either `continue` (degenerate section whose
trailing vertex equals its recorded leading vertex — the source does *not*
erase it from the context) or emit it with one exit and one entering edge
and erase it. -/
def finishIndex (ε lim : ℚ) (i : ℕ) (st : FinSt) : FinSt :=
  let s := st.ctx.getD i default
  if FinishCond ε s lim then
    let w1 := windLoop st.ctx i (st.w.map (fun _ => 0))
    let r := { s with windings := w1 }
    let fv := findVertex ε st.vs r.tp
    if fv.1 = st.vix.getD i 0 then { st with vs := fv.2, w := w1 }
    else
      let n := st.secs.length
      let lv := st.vix.getD i 0
      let vs2 := fv.2.set lv (addExit (fv.2.getD lv default) ⟨n, fv.1⟩)
      let vs3 := vs2.set fv.1 (addEnter (vs2.getD fv.1 default) ⟨n, lv⟩)
      { ctx := st.ctx.eraseIdx i, vix := st.vix.eraseIdx i,
        vs := vs3, secs := st.secs ++ [r], w := w1 }
  else st

/-- The finishing pass `for(i = context.size() - 1; i >= 0; i--)`:
`finishFrom ε lim n` processes positions `n - 1` down to `0`. -/
def finishFrom (ε lim : ℚ) : ℕ → FinSt → FinSt
  | 0, st => st
  | i + 1, st => finishFrom ε lim i (finishIndex ε lim i st)

/-! ## The pending heap and the sweep loop -/

/-- Source `HeapSorter` orders the pending heap so that popping yields the section
with the lexicographically smallest leading point along the sweep axis. -/
def HeapLess (d : Dim) (a b : Section) : Prop := LexoPoint b.fp a.fp d

instance (d : Dim) (a b : Section) : Decidable (HeapLess d a b) :=
  inferInstanceAs (Decidable (LexoPoint b.fp a.fp d))

/-- Scan for the index of the leftmost section whose leading point is
lexicographically minimal. -/
def popMinGo (d : Dim) : List Section → ℕ → ℕ → Section → ℕ
  | [], _, best, _ => best
  | x :: xs, i, best, bsec =>
      if LexoPoint x.fp bsec.fp d then popMinGo d xs (i + 1) i x
      else popMinGo d xs (i + 1) best bsec

/-- The index popped from the pending heap.  `std::pop_heap` extracts a
maximal element under `HeapSorter`, i.e. one with lexicographically
minimal leading point; ties are resolved to the leftmost such element. -/
def popMinIdx (d : Dim) : List Section → ℕ
  | [] => 0
  | x :: xs => popMinGo d xs 1 0 x

/-- The loop of `std::lower_bound(first, last, val, comp)`, recursing on
the remaining length exactly as libstdc++ does; the extra fuel argument
(instantiated with the length) only makes the recursion structural. -/
def lbGo (p : ℕ → Bool) : ℕ → ℕ → ℕ → ℕ
  | 0, first, _ => first
  | fuel + 1, first, len =>
      if len = 0 then first
      else
        let half := len / 2
        if p (first + half) then lbGo p fuel (first + half + 1) (len - half - 1)
        else lbGo p fuel first half

/-- Source `std::lower_bound` over the context: the first position at which
`comp(context[pos], val)` fails, found by binary probing. -/
def lowerBound (comp : Section → Bool) (ctx : List Section) : ℕ :=
  lbGo (fun i => comp (ctx.getD i default)) ctx.length 0 ctx.length

/-- The body of the neighbor-intersection loop (source lines 346-360) at
context position `i`: when the candidate's perpendicular interval `si`
meets the neighbor's, intersect the two monotone pieces, collect the
candidate-side parameters, and split the neighbor in place, pushing its
tail pieces. -/
def nbStep (env : Env) (ε : ℚ) (d : Dim) (sc : CurveIx) (sf st0 : ℚ) (si : Iv)
    (i : ℕ) (ctx : List Section) (ts : List ℚ) (pushed : List Section) :
    Option (List Section × List ℚ × List Section) :=
  let ci := ctx.getD i default
  if si.intersects (mkIv (ci.fp.get d.other) (ci.tp.get d.other)) then
    let xs := env.monoIntersect sc (mkIv sf st0) ci.curve (mkIv ci.f ci.t)
    match splitSection env ε d ci (xs.map Prod.snd) with
    | some (c2, tails) => some (ctx.set i c2, ts ++ xs.map Prod.fst, pushed ++ tails)
    | none => none
  else some (ctx, ts, pushed)

/-- The neighbor-intersection loop, iterating `i` upward over the context
and skipping the candidate's own position `ctxIx`; `rem` counts the
positions still to visit. -/
def nbLoop (env : Env) (ε : ℚ) (d : Dim) (sc : CurveIx) (sf st0 : ℚ) (si : Iv)
    (ctxIx : ℕ) : ℕ → ℕ → List Section → List ℚ → List Section →
    Option (List Section × List ℚ × List Section)
  | 0, _, ctx, ts, pushed => some (ctx, ts, pushed)
  | rem + 1, i, ctx, ts, pushed =>
      if i = ctxIx then nbLoop env ε d sc sf st0 si ctxIx rem (i + 1) ctx ts pushed
      else
        match nbStep env ε d sc sf st0 si i ctx ts pushed with
        | some (ctx2, ts2, p2) => nbLoop env ε d sc sf st0 si ctxIx rem (i + 1) ctx2 ts2 p2
        | none => none

/-- The mutable state local to one execution of `sweep_graph`. -/
structure SweepCore where
  pending : List Section
  context : List Section
  vix : List ℕ
  vertices : List Vertex
  sections : List Section
  w : List ℤ
deriving DecidableEq, Repr, Inhabited

/-- The outcome of one iteration of the sweep loop: continue with a new
state (also yielding the two entries appended to the global trace buffers
`monoss` and `contexts`), return the graph, or abort on an out-of-bounds
split or a failed `set_to` assertion. -/
inductive StepOut where
  | next (c : SweepCore) (remTrace : List Section) (ctxTrace : List Section) : StepOut
  | done (g : Graph) : StepOut
  | crash : StepOut
deriving DecidableEq, Repr, Inhabited

/-- The snapshot `rem` pushed to the `monoss` trace: the live heap
contents, sorted by the heap comparator. -/
def sortPending (d : Dim) (l : List Section) : List Section :=
  List.insertionSort (fun a b => decide (HeapLess d a b)) l

/-- One iteration of the `while(true)` loop of `sweep_graph`.  With an
empty heap `lim` is `0.0 / 1.0` — that is `0`, as written in the source —
the finishing pass runs, and the loop breaks.  Otherwise the minimal
pending section is popped, the finishing pass runs at its leading
coordinate, and (unless the pop emptied the heap, in which case the loop
breaks and the popped candidate is discarded) the candidate is inserted
into the context, intersected against overlapping neighbors, and split. -/
def sweepStep (env : Env) (ε : ℚ) (d : Dim) (c : SweepCore) : StepOut :=
  match c.pending with
  | [] =>
      let fs := finishFrom ε 0 c.context.length
        ⟨c.context, c.vix, c.vertices, c.sections, c.w⟩
      .done ⟨fs.vs, fs.secs⟩
  | _ :: _ =>
      let idx := popMinIdx d c.pending
      let s := c.pending.getD idx default
      let pending1 := c.pending.eraseIdx idx
      let lim := s.fp.get d
      let fs := finishFrom ε lim c.context.length
        ⟨c.context, c.vix, c.vertices, c.sections, c.w⟩
      if pending1.isEmpty then .done ⟨fs.vs, fs.secs⟩
      else
        let ctxIx := lowerBound (fun x => sectionCompare env ε d.other x s) fs.ctx
        let ctx1 := fs.ctx.insertIdx ctxIx s
        let fv := findVertex ε fs.vs s.fp
        let vix1 := fs.vix.insertIdx ctxIx fv.1
        let si := mkIv (s.fp.get d.other) (s.tp.get d.other)
        match nbLoop env ε d s.curve s.f s.t si ctxIx ctx1.length 0 ctx1 [] [] with
        | none => .crash
        | some (ctx2, ts, pushedN) =>
            match splitSection env ε d (ctx2.getD ctxIx default) ts with
            | none => .crash
            | some (cand2, tailsC) =>
                let ctx3 := ctx2.set ctxIx cand2
                let pending2 := pending1 ++ pushedN ++ tailsC
                .next ⟨pending2, ctx3, vix1, fv.2, fs.secs, fs.w⟩
                  (sortPending d pending2) ctx3

/-- The global trace buffers `monoss` and `contexts` of the source: shared
mutable state that outlives a call of `sweep_graph` (the toy clears them
between frames). -/
structure Trace where
  monoss : List (List Section)
  contexts : List (List Section)
deriving DecidableEq, Repr, Inhabited

/-- The result of a bounded run of the sweep loop. -/
inductive RunOut where
  | ok (g : Graph) : RunOut
  | crash : RunOut
  | fuelOut : RunOut
deriving DecidableEq, Repr, Inhabited

/-- Run the sweep loop for at most `fuel` iterations, threading the global
trace buffers. -/
def sweepRunT (env : Env) (ε : ℚ) (d : Dim) : ℕ → SweepCore → Trace → RunOut × Trace
  | 0, _, tr => (.fuelOut, tr)
  | n + 1, c, tr =>
      match sweepStep env ε d c with
      | .done g => (.ok g, tr)
      | .crash => (.crash, tr)
      | .next c2 tm tc => sweepRunT env ε d n c2 ⟨tr.monoss ++ [tm], tr.contexts ++ [tc]⟩

/-- The state at entry of the sweep loop: the monotonic sections in the
pending heap, everything else empty, and the winding scratch vector of one
zero per input path. -/
def initCore (env : Env) (ε : ℚ) : SweepCore :=
  ⟨monoSections ε env, [], [], [], [], List.replicate env.paths.length 0⟩

/-- Source `sweep_graph(ps, d)` run with `fuel` iterations from the global trace
state `tr`. -/
def sweepGraphT (env : Env) (ε : ℚ) (d : Dim) (fuel : ℕ) (tr : Trace) : RunOut × Trace :=
  sweepRunT env ε d fuel (initCore env ε) tr

/-! ## Spec-side definitions for the claims under test -/

/-- The reference tolerance used to instantiate concrete counterexamples
and witnesses (the header defining `EPSILON` is not in the snapshot, so
theorems keep `ε` abstract wherever possible). -/
def eps0 : ℚ := 1 / 100000

/-- Modelled from the spec (claim C1): the claimed winding rule.  It
matches `windStep` except that the decrement on a reversed lower section
is applied to the winding count indexed by that section's *path* index
`k`, the same entry the increment uses — not the context index `j`. -/
def claimWindStep (ctx : List Section) (j : ℕ) (w : List ℤ) : List ℤ :=
  let sj := ctx.getD j default
  let k := sj.curve.path
  if sj.fp.x = sj.tp.x then w
  else
    let w2 := if sj.f < sj.t then w.set k (w.getD k 0 + 1) else w
    if sj.f > sj.t then w2.set k (w2.getD k 0 - 1) else w2

/-- The claimed winding loop over all lower context positions. -/
def claimWindLoop (ctx : List Section) : ℕ → List ℤ → List ℤ
  | 0, w => w
  | j + 1, w => claimWindStep ctx j (claimWindLoop ctx j w)

/-- Modelled from the spec (claim C2): a section is finished exactly when
its trailing coordinate *along the sweep axis `d`* is `≤ lim` within
tolerance. -/
def ClaimFinishCond (ε : ℚ) (d : Dim) (s : Section) (lim : ℚ) : Prop :=
  s.tp.get d < lim ∨ AreNear ε (s.tp.get d) lim

instance (ε : ℚ) (d : Dim) (s : Section) (lim : ℚ) :
    Decidable (ClaimFinishCond ε d s lim) :=
  inferInstanceAs (Decidable (_ ∨ _))

/-- Modelled from the spec (claim C3): the claimed comparator procedure for
boxes overlapping on the ordering (perpendicular) axis `dim` — probe when
the leading points coincide on `dim` within tolerance, otherwise root-find
the shared `dim` value on the containing section (restricted to its
parameter interval) and compare there. -/
def claimedOrderC3 (env : Env) (ε : ℚ) (dim : Dim) (a b : Section) : Bool :=
  if AreNear ε (a.fp.get dim) (b.fp.get dim) then
    sectionOrder env ε dim a (probeParam a) b (probeParam b)
  else if a.fp.get dim < b.fp.get dim then
    sectionOrder env ε dim a (sectionRoot env a (b.fp.get dim) dim) b b.f
  else
    sectionOrder env ε dim a a.f b (sectionRoot env b (a.fp.get dim) dim)

/-- The amended C3 decision procedure, following the source: once the
boxes overlap on both the ordering axis `dim` and the other (sweep) axis,
coincidence of the leading points and the containment value are both taken
along the *other* axis, with a midpoint fallback when root-finding fails. -/
def amendedOrderC3 (env : Env) (ε : ℚ) (dim : Dim) (a b : Section) : Bool :=
  if AreNear ε (a.fp.get dim.other) (b.fp.get dim.other) then
    sectionOrder env ε dim a (probeParam a) b (probeParam b)
  else if a.fp.get dim.other < b.fp.get dim.other then
    let ta := sectionRoot env a (b.fp.get dim.other) dim.other
    let ta := if ta = -1 then (a.t + a.f) / 2 else ta
    sectionOrder env ε dim a ta b b.f
  else
    let tb := sectionRoot env b (a.fp.get dim.other) dim.other
    let tb := if tb = -1 then (b.t + b.f) / 2 else tb
    sectionOrder env ε dim a a.f b tb

/-! ## Concrete instances used by counterexamples and witnesses -/

/-- A context of two lower sections: position 0 holds a forward section of
path 1, position 1 holds a reversed (`f > t`) section of path 0; both have
distinct leading and trailing `X` coordinates. -/
def ctxC1 : List Section :=
  [⟨⟨1, 0⟩, 0, 1, ⟨0, 0⟩, ⟨1, 1⟩, []⟩, ⟨⟨0, 0⟩, 1, 0, ⟨0, 2⟩, ⟨1, 3⟩, []⟩]

/-- A section whose trailing point is `(5, 10)`: below a `Y`-sweep position
of `6` in `X` but far above it in `Y`. -/
def sC2 : Section := ⟨⟨0, 0⟩, 0, 1, ⟨0, 0⟩, ⟨5, 10⟩, []⟩

/-- The line `t ↦ (10t, t)` with exact rational root and tangent data. -/
def caC3 : Curve :=
  { pointAt := fun q => ⟨10 * q, q⟩
    rootsAt := fun v dd => match dd with | .X => [v / 10] | .Y => [v]
    unitTangentAt := fun _ => ⟨1, 0⟩
    derivRoots := fun _ => [] }

/-- The line `t ↦ (5 + t, 10t)`. -/
def cbC3 : Curve :=
  { pointAt := fun q => ⟨5 + q, 10 * q⟩
    rootsAt := fun v dd => match dd with | .X => [v - 5] | .Y => [v / 10]
    unitTangentAt := fun _ => ⟨1, 0⟩
    derivRoots := fun _ => [] }

/-- A two-path store holding the two lines above. -/
def envC3 : Env := ⟨[[caC3], [cbC3]], fun _ _ _ _ => []⟩

/-- The monotonic section covering all of `caC3`. -/
def saC3 : Section := ⟨⟨0, 0⟩, 0, 1, ⟨0, 0⟩, ⟨10, 1⟩, []⟩

/-- The monotonic section covering all of `cbC3`; its leading point shares
`y = 0` with `saC3`'s but lies at `x = 5`. -/
def sbC3 : Section := ⟨⟨1, 0⟩, 0, 1, ⟨5, 0⟩, ⟨6, 10⟩, []⟩

/-- A degenerate active section whose leading and trailing points are the
same point `(0, 0)`. -/
def sC4 : Section := ⟨⟨0, 0⟩, 0, 1, ⟨0, 0⟩, ⟨0, 0⟩, []⟩

/-- A finishing-pass state whose single context member is `sC4` and whose
vertex store already holds its leading vertex at index 0. -/
def stC4 : FinSt := ⟨[sC4], [0], [⟨[], [], ⟨0, 0⟩⟩], [], [0]⟩

/-- A curve whose derivative vanishes at `1 - ε/2`, a parameter inside
`[0, 1]` but within tolerance of the endpoint `1`. -/
def c5curve (ε : ℚ) : Curve :=
  { pointAt := fun q => ⟨q, q⟩
    rootsAt := fun _ _ => []
    unitTangentAt := fun _ => ⟨1, 1⟩
    derivRoots := fun dd => match dd with | .X => [1 - ε / 2] | .Y => [] }

/-- A non-degenerate section over `[0, 2]`. -/
def sC6 : Section := ⟨⟨0, 0⟩, 0, 2, ⟨0, 0⟩, ⟨1, 1⟩, []⟩

/-- An empty curve store (the C6 crash happens before any curve access). -/
def envTriv : Env := ⟨[], fun _ _ _ _ => []⟩

/-! ## Claim C1 -/

/-- C1: the claim says a reversed (`f > t`) non-degenerate lower section
decrements the winding count indexed by its *path* index.  The source
(line 312) decrements `windings[j]` with `j` the *context* position: in
context `ctxC1` the reversed section of path 0 sits at context position 1,
so the code cancels the increment of path 1 and leaves path 0 untouched,
while the claimed rule yields `[-1, 1]`. -/
theorem c1_winding_decrement_index_bug :
    windLoop ctxC1 2 [0, 0] = [0, 0] ∧
    claimWindLoop ctxC1 2 [0, 0] = [-1, 1] ∧
    windLoop ctxC1 2 [0, 0] ≠ claimWindLoop ctxC1 2 [0, 0] := by
  refine ⟨by decide, by decide, by decide⟩

/-! ## Claim C2 -/

/-- C2: the claim says a section is finished exactly when its trailing
coordinate along the sweep axis `d` is `≤ lim` within tolerance, for both
axes.  The source (line 304) tests `tp[X]` for every `d`: with `d = Y`,
`lim = 6` and trailing point `(5, 10)` the code finishes the section while
the claimed condition rejects it. -/
theorem c2_finish_axis_bug (ε : ℚ) (hε : ε < 4) :
    FinishCond ε sC2 6 ∧ ¬ ClaimFinishCond ε Dim.Y sC2 6 := by
  constructor
  · exact Or.inl (by norm_num [sC2])
  · rintro (h | h)
    · simp only [sC2, Point.get] at h
      norm_num at h
    · simp only [AreNear, sC2, Point.get] at h
      obtain ⟨-, h2⟩ := h
      linarith

/-- Witness for `c2_finish_axis_bug` at the reference tolerance. -/
theorem c2_finish_axis_bug_witness :
    eps0 < 4 ∧ (FinishCond eps0 sC2 6 ∧ ¬ ClaimFinishCond eps0 Dim.Y sC2 6) :=
  ⟨by norm_num [eps0], c2_finish_axis_bug eps0 (by norm_num [eps0])⟩

/-! ## Claim C3 -/

/-- C3 counterexample: `saC3` and `sbC3` are active sections whose boxes
overlap on the ordering (perpendicular) axis `Y` and whose leading points
coincide exactly on `Y`, so the claim prescribes the probe comparison,
which puts `a` below `b`; the comparator instead tests coincidence along
the *other* axis (`x` values 0 and 5, not near), takes the containment
branch at the shared `x = 5`, and answers `false`. -/
theorem c3_perpendicular_axis_counterexample :
    (¬ (saC3.bboxIv Dim.Y).hi ≤ (sbC3.bboxIv Dim.Y).lo) ∧
    (¬ (sbC3.bboxIv Dim.Y).hi ≤ (saC3.bboxIv Dim.Y).lo) ∧
    AreNear eps0 (saC3.fp.get Dim.Y) (sbC3.fp.get Dim.Y) ∧
    claimedOrderC3 envC3 eps0 Dim.Y saC3 sbC3 = true ∧
    sectionOrder envC3 eps0 Dim.Y saC3 (probeParam saC3) sbC3 (probeParam sbC3) = true ∧
    sectionCompare envC3 eps0 Dim.Y saC3 sbC3 = false := by
  refine ⟨by with_unfolding_all decide, by with_unfolding_all decide,
    by with_unfolding_all decide, by with_unfolding_all decide,
    by with_unfolding_all decide, by with_unfolding_all decide⟩

/-- C3 amended: when the two bounding boxes overlap on the ordering axis
`dim` (neither strictly below the other) and also on the other (sweep)
axis, the comparator decides by the probe comparison exactly when the
leading points coincide within tolerance along the *sweep* axis, and
otherwise compares at the shared sweep-axis value obtained by root-finding
on the containing section over its parameter interval (midpoint fallback
when root-finding fails). -/
theorem c3_sweep_axis_order (env : Env) (ε : ℚ) (dim : Dim) (a b : Section)
    (h1 : ¬ (a.bboxIv dim).hi ≤ (b.bboxIv dim).lo)
    (h2 : ¬ (b.bboxIv dim).hi ≤ (a.bboxIv dim).lo)
    (h3 : (a.bboxIv dim.other).intersects (b.bboxIv dim.other)) :
    sectionCompare env ε dim a b = amendedOrderC3 env ε dim a b := by
  unfold sectionCompare amendedOrderC3
  rw [if_neg h1, if_neg h2, if_pos h3]

/-- Witness for `c3_sweep_axis_order` at the C3 instance. -/
theorem c3_sweep_axis_order_witness :
    ((¬ (saC3.bboxIv Dim.Y).hi ≤ (sbC3.bboxIv Dim.Y).lo) ∧
     (¬ (sbC3.bboxIv Dim.Y).hi ≤ (saC3.bboxIv Dim.Y).lo) ∧
     (saC3.bboxIv Dim.Y.other).intersects (sbC3.bboxIv Dim.Y.other)) ∧
    sectionCompare envC3 eps0 Dim.Y saC3 sbC3 = amendedOrderC3 envC3 eps0 Dim.Y saC3 sbC3 :=
  ⟨⟨by with_unfolding_all decide, by with_unfolding_all decide, by with_unfolding_all decide⟩,
    c3_sweep_axis_order envC3 eps0 Dim.Y saC3 sbC3 (by with_unfolding_all decide)
      (by with_unfolding_all decide) (by with_unfolding_all decide)⟩

/-! ## Claim C4 -/

/-- C4: a finished section whose trailing point resolves to its own leading
vertex is skipped by `continue` (source line 320), which does *not* erase
it from the active context: the finishing pass leaves the state — the
degenerate section included — completely unchanged, while the claim says
the section is removed from the active context like every other finished
section.  (It is indeed neither output nor given edges.) -/
theorem c4_degenerate_section_not_removed (ε : ℚ) (hε : 0 ≤ ε) :
    finishFrom ε 5 1 stC4 = stC4 ∧ stC4.ctx = [sC4] ∧ stC4.secs = [] := by
  refine ⟨?_, rfl, rfl⟩
  have hnear : AreNearPoint ε (⟨0, 0⟩ : Point) (⟨0, 0⟩ : Point) := by
    refine ⟨⟨?_, ?_⟩, ⟨?_, ?_⟩⟩ <;> simp [hε, neg_nonpos]
  have hfc : FinishCond ε sC4 5 := Or.inl (by norm_num [sC4])
  show finishIndex ε 5 0 stC4 = stC4
  rw [finishIndex]
  have hget : stC4.ctx.getD 0 default = sC4 := rfl
  rw [hget, if_pos hfc]
  simp [stC4, sC4, windLoop, findVertex, hnear]

/-- Witness for `c4_degenerate_section_not_removed` at the reference
tolerance. -/
theorem c4_degenerate_section_not_removed_witness :
    (0 : ℚ) ≤ eps0 ∧
    (finishFrom eps0 5 1 stC4 = stC4 ∧ stC4.ctx = [sC4] ∧ stC4.secs = []) :=
  ⟨by norm_num [eps0], c4_degenerate_section_not_removed eps0 (by norm_num [eps0])⟩

/-! ## Claim C5 -/

/-- C5: for any positive tolerance `ε < 1/2`, a curve whose derivative has
a root at `1 - ε/2` — inside `[0, 1]` but within tolerance of 1 — makes
`mono_splits` return the *empty* list: `std::unique` keeps `1 - ε/2` and
absorbs the endpoint `1`, and the trailing trim loop then erases every
entry while hunting for an exact `1`.  The output therefore contains
neither 0 nor 1, contradicting the claim (and the function's own comment
"including 0 and 1"). -/
theorem c5_monosplits_drops_endpoints (ε : ℚ) (h0 : 0 < ε) (h1 : ε < 1 / 2) :
    monoSplits ε (c5curve ε) = [] ∧
    ¬ ((0 : ℚ) ∈ monoSplits ε (c5curve ε) ∧ (1 : ℚ) ∈ monoSplits ε (c5curve ε)) := by
  have hx0 : ¬ (1 - ε / 2 ≤ (0 : ℚ)) := by intro h; linarith
  have hx1 : 1 - ε / 2 ≤ (1 : ℚ) := by linarith
  have h01 : (0 : ℚ) ≤ 1 := by norm_num
  have hft : ¬ ((0 : ℚ) > 1) := by norm_num
  have hn1 : ¬ AreNear ε 0 (1 - ε / 2) := by
    rintro ⟨ha, -⟩
    linarith
  have hn2 : AreNear ε (1 - ε / 2) 1 := by
    constructor <;> linarith
  have hne1 : 1 - ε / 2 ≠ (1 : ℚ) := by intro h; linarith
  have hne0 : (0 : ℚ) ≠ 1 := by norm_num
  have hd : (c5curve ε).derivRoots Dim.X ++ (c5curve ε).derivRoots Dim.Y
      = [1 - ε / 2] := rfl
  have hsort : List.insertionSort (fun a b => a ≤ b) [1 - ε / 2, (0 : ℚ), 1]
      = [0, 1 - ε / 2, 1] := by
    simp [List.insertionSort, List.orderedInsert, hx0, hx1, h01]
  have huniq : uniqueNear ε [(0 : ℚ), 1 - ε / 2, 1] = [0, 1 - ε / 2] := by
    simp [uniqueNear, uniqueNearGo, hn1, hn2]
  have hdrop : List.dropWhile (fun x => decide (x ≠ (0 : ℚ))) [(0 : ℚ), 1 - ε / 2]
      = [0, 1 - ε / 2] := by
    simp [List.dropWhile]
  have htrim : trimBack 1 [(0 : ℚ), 1 - ε / 2] = [] := by
    simp [trimBack, List.dropWhile, hne1, hne0]
  have hmain : monoSplits ε (c5curve ε) = [] := by
    rw [monoSplits, hd]
    simp only [processSplits]
    rw [show ([1 - ε / 2] ++ [(0 : ℚ), 1]) = [1 - ε / 2, 0, 1] from rfl]
    rw [hsort, if_neg hft, huniq, hdrop, htrim]
  refine ⟨hmain, ?_⟩
  rw [hmain]
  rintro ⟨h, -⟩
  exact (List.not_mem_nil _) h

/-- Witness for `c5_monosplits_drops_endpoints` at the reference
tolerance. -/
theorem c5_monosplits_drops_endpoints_witness :
    ((0 : ℚ) < eps0 ∧ eps0 < 1 / 2) ∧
    (monoSplits eps0 (c5curve eps0) = [] ∧
     ¬ ((0 : ℚ) ∈ monoSplits eps0 (c5curve eps0) ∧
        (1 : ℚ) ∈ monoSplits eps0 (c5curve eps0))) :=
  ⟨⟨by norm_num [eps0], by norm_num [eps0]⟩,
    c5_monosplits_drops_endpoints eps0 (by norm_num [eps0]) (by norm_num [eps0])⟩

/-! ## Claim C6 -/

/-- C6: a raw cut parameter lying inside `[f, t]` but within tolerance of
`t` makes the cleaned cut sequence of the splitting protocol *empty*, so
the unconditional `cuts[1]` read of `split_section` is out of bounds
(modelled as `none`), refuting the claimed in-bounds guarantee — even
though the section is non-degenerate (`f` and `t` differ beyond
tolerance). -/
theorem c6_split_out_of_bounds (ε : ℚ) (h0 : 0 < ε) (h1 : ε < 1) :
    ¬ AreNear ε sC6.f sC6.t ∧
    splitSection envTriv ε Dim.X sC6 [2 - ε / 2] = none := by
  have hx0 : ¬ (2 - ε / 2 ≤ (0 : ℚ)) := by intro h; linarith
  have hx1 : 2 - ε / 2 ≤ (2 : ℚ) := by linarith
  have h01 : (0 : ℚ) ≤ 2 := by norm_num
  have hft : ¬ ((0 : ℚ) > 2) := by norm_num
  have hn1 : ¬ AreNear ε 0 (2 - ε / 2) := by
    rintro ⟨ha, -⟩
    linarith
  have hn2 : AreNear ε (2 - ε / 2) 2 := by
    constructor <;> linarith
  have hne1 : 2 - ε / 2 ≠ (2 : ℚ) := by intro h; linarith
  have hne0 : (0 : ℚ) ≠ 2 := by norm_num
  have hsort : List.insertionSort (fun a b => a ≤ b) [2 - ε / 2, (0 : ℚ), 2]
      = [0, 2 - ε / 2, 2] := by
    simp [List.insertionSort, List.orderedInsert, hx0, hx1, h01]
  have huniq : uniqueNear ε [(0 : ℚ), 2 - ε / 2, 2] = [0, 2 - ε / 2] := by
    simp [uniqueNear, uniqueNearGo, hn1, hn2]
  have hdrop : List.dropWhile (fun x => decide (x ≠ (0 : ℚ))) [(0 : ℚ), 2 - ε / 2]
      = [0, 2 - ε / 2] := by
    simp [List.dropWhile]
  have htrim : trimBack 2 [(0 : ℚ), 2 - ε / 2] = [] := by
    simp [trimBack, List.dropWhile, hne1, hne0]
  have hps : processSplits ε [2 - ε / 2] 0 2 = [] := by
    simp only [processSplits]
    rw [show ([2 - ε / 2] ++ [(0 : ℚ), 2]) = [2 - ε / 2, 0, 2] from rfl]
    rw [hsort, if_neg hft, huniq, hdrop, htrim]
  constructor
  · show ¬ AreNear ε 0 2
    rintro ⟨ha, -⟩
    linarith
  · rw [splitSection]
    rw [show sC6.f = (0 : ℚ) from rfl, show sC6.t = (2 : ℚ) from rfl, hps]

/-- Witness for `c6_split_out_of_bounds` at the reference tolerance. -/
theorem c6_split_out_of_bounds_witness :
    ((0 : ℚ) < eps0 ∧ eps0 < 1) ∧
    (¬ AreNear eps0 sC6.f sC6.t ∧
     splitSection envTriv eps0 Dim.X sC6 [2 - eps0 / 2] = none) :=
  ⟨⟨by norm_num [eps0], by norm_num [eps0]⟩,
    c6_split_out_of_bounds eps0 (by norm_num [eps0]) (by norm_num [eps0])⟩

/-! ## Claim C8 -/

/-- The graph component of a bounded run never depends on the incoming
trace state: the step function only appends to the trace buffers. -/
theorem sweepRunT_fst_trace_free (env : Env) (ε : ℚ) (d : Dim) :
    ∀ (fuel : ℕ) (c : SweepCore) (tr1 tr2 : Trace),
      (sweepRunT env ε d fuel c tr1).1 = (sweepRunT env ε d fuel c tr2).1 := by
  intro fuel
  induction fuel with
  | zero => intro c tr1 tr2; rfl
  | succ n ih =>
      intro c tr1 tr2
      simp only [sweepRunT]
      cases hs : sweepStep env ε d c with
      | done g => rfl
      | crash => rfl
      | next c2 tm tc => exact ih c2 _ _

/-- C8: the sweep is a deterministic function of its input.  The only
mutable state shared between invocations — the global `monoss` and
`contexts` trace buffers — never influences the returned graph: two runs
of the same input from arbitrary residual trace states produce identical
results, so running the sweep twice in the same order yields identical
vertex and finished-section sequences. -/
theorem c8_deterministic_trace_independent (env : Env) (ε : ℚ) (d : Dim) (fuel : ℕ)
    (tr1 tr2 : Trace) :
    (sweepGraphT env ε d fuel tr1).1 = (sweepGraphT env ε d fuel tr2).1 :=
  sweepRunT_fst_trace_free env ε d fuel (initCore env ε) tr1 tr2

/-! ## Claim C7: edge bookkeeping invariant -/

/-- All exit edges recorded anywhere in the vertex store. -/
def exitsAll (vs : List Vertex) : List Edge := (vs.map Vertex.exits).flatten

/-- All entering edges recorded anywhere in the vertex store. -/
def entersAll (vs : List Vertex) : List Edge := (vs.map Vertex.enters).flatten

/-- The edge bookkeeping invariant: the section indices of the recorded
exit edges (resp. entering edges) are exactly the indices of the finished
sections, each occurring once. -/
def EdgeInv (vs : List Vertex) (secs : List Section) : Prop :=
  ((exitsAll vs).map Edge.sectionIx).Perm (List.range secs.length) ∧
  ((entersAll vs).map Edge.sectionIx).Perm (List.range secs.length)

/-- The edge-location invariant on the vertex store: every recorded exit
edge refers to an already-finished section and is recorded at a vertex
whose point is within tolerance of that section's leading point, and
every recorded entering edge at a vertex within tolerance of its
section's trailing point. -/
def LocVs (ε : ℚ) (vs : List Vertex) (secs : List Section) : Prop :=
  ∀ v ∈ vs,
    (∀ e ∈ v.exits, e.sectionIx < secs.length ∧
      AreNearPoint ε v.avg ((secs.getD e.sectionIx default).fp)) ∧
    (∀ e ∈ v.enters, e.sectionIx < secs.length ∧
      AreNearPoint ε v.avg ((secs.getD e.sectionIx default).tp))

/-- The start-vertex invariant on the context: the recorded start vertex
of every active section is within tolerance of that section's leading
point (the point it was looked up from at insertion; `set_to` never
moves `fp`, so it is unchanged for as long as the section stays
active). -/
def LocCtx (ε : ℚ) (ctx : List Section) (vix : List ℕ) (vs : List Vertex) : Prop :=
  ∀ i, i < ctx.length →
    AreNearPoint ε ((vs.getD (vix.getD i 0) default).avg) ((ctx.getD i default).fp)

/-- The invariant carried through the finishing pass. -/
def FinInv (ε : ℚ) (st : FinSt) : Prop :=
  st.vix.length = st.ctx.length ∧ (∀ v ∈ st.vix, v < st.vs.length) ∧
  EdgeInv st.vs st.secs ∧ LocCtx ε st.ctx st.vix st.vs ∧ LocVs ε st.vs st.secs

/-- The invariant carried through the sweep loop. -/
def CoreInv (ε : ℚ) (c : SweepCore) : Prop :=
  c.vix.length = c.context.length ∧ (∀ v ∈ c.vix, v < c.vertices.length) ∧
  EdgeInv c.vertices c.sections ∧ LocCtx ε c.context c.vix c.vertices ∧
  LocVs ε c.vertices c.sections

theorem areNearPoint_self (ε : ℚ) (hε : 0 ≤ ε) (p : Point) : AreNearPoint ε p p :=
  ⟨⟨by linarith, by linarith⟩, by linarith, by linarith⟩

theorem getD_mem {α : Type} (d : α) (l : List α) (j : ℕ) (h : j < l.length) :
    l.getD j d ∈ l := by
  rw [List.getD_eq_getElem?_getD, List.getElem?_eq_getElem h]
  exact List.getElem_mem h

theorem getD_oob {α : Type} (d : α) :
    ∀ (l : List α) (j : ℕ), l.length ≤ j → l.getD j d = d := by
  intro l
  induction l with
  | nil => intro j _; rfl
  | cons x xs ih =>
      intro j h
      cases j with
      | zero => simp at h
      | succ m =>
          rw [List.getD_cons_succ]
          exact ih m (by simpa using h)

theorem getD_set_split {α : Type} (d a : α) :
    ∀ (l : List α) (i j : ℕ),
      (l.set i a).getD j d = if j = i ∧ j < l.length then a else l.getD j d := by
  intro l
  induction l with
  | nil =>
      intro i j
      rw [if_neg (by simp)]
      rfl
  | cons x xs ih =>
      intro i j
      cases i with
      | zero =>
          cases j with
          | zero =>
              rw [if_pos ⟨rfl, by simp⟩]
              rfl
          | succ m =>
              rw [if_neg (by simp), show (x :: xs).set 0 a = a :: xs from rfl,
                List.getD_cons_succ, List.getD_cons_succ]
      | succ k =>
          cases j with
          | zero =>
              rw [if_neg (by simp)]
              rfl
          | succ m =>
              have hih := ih k m
              rw [show (x :: xs).set (k + 1) a = x :: xs.set k a from rfl,
                List.getD_cons_succ, List.getD_cons_succ, hih]
              simp only [List.length_cons]
              by_cases hc : m = k ∧ m < xs.length
              · rw [if_pos hc, if_pos (by omega)]
              · rw [if_neg hc, if_neg (by omega)]

theorem getD_eraseIdx_split {α : Type} (d : α) :
    ∀ (l : List α) (i j : ℕ), j < (l.eraseIdx i).length →
      (l.eraseIdx i).getD j d = if j < i then l.getD j d else l.getD (j + 1) d := by
  intro l
  induction l with
  | nil =>
      intro i j h
      simp [List.eraseIdx] at h
  | cons x xs ih =>
      intro i j h
      cases i with
      | zero =>
          rw [if_neg (by omega)]
          rfl
      | succ k =>
          cases j with
          | zero =>
              rw [if_pos (by omega)]
              rfl
          | succ m =>
              have hm : m < (xs.eraseIdx k).length := by
                have h2 : m + 1 < (x :: xs.eraseIdx k).length := h
                simp only [List.length_cons] at h2
                omega
              have hih := ih k m hm
              rw [show (x :: xs).eraseIdx (k + 1) = x :: xs.eraseIdx k from rfl,
                List.getD_cons_succ, hih]
              by_cases hc : m < k
              · rw [if_pos hc, if_pos (by omega), List.getD_cons_succ]
              · rw [if_neg hc, if_neg (by omega), List.getD_cons_succ]

theorem getD_insertIdx_split {α : Type} (d a : α) :
    ∀ (i : ℕ) (l : List α) (j : ℕ), i ≤ l.length →
      (l.insertIdx i a).getD j d =
        if j < i then l.getD j d
        else if j = i then a else l.getD (j - 1) d := by
  intro i
  induction i with
  | zero =>
      intro l j _
      rw [if_neg (by omega)]
      cases j with
      | zero =>
          rw [if_pos rfl, List.insertIdx_zero]
          rfl
      | succ m =>
          rw [if_neg (by omega), List.insertIdx_zero, List.getD_cons_succ]
          rfl
  | succ k ih =>
      intro l j hl
      cases l with
      | nil => simp at hl
      | cons x xs =>
          cases j with
          | zero =>
              rw [if_pos (by omega), List.insertIdx_succ_cons]
              rfl
          | succ m =>
              have hx : k ≤ xs.length := by
                simp only [List.length_cons] at hl
                omega
              have hih := ih xs m hx
              rw [List.insertIdx_succ_cons, List.getD_cons_succ, hih]
              by_cases h1 : m < k
              · rw [if_pos h1, if_pos (by omega), List.getD_cons_succ]
              · rw [if_neg h1]
                by_cases h2 : m = k
                · rw [if_pos h2, if_neg (by omega), if_pos (by omega)]
                · rw [if_neg h2, if_neg (by omega), if_neg (by omega)]
                  have hm1 : m + 1 - 1 = (m - 1) + 1 := by omega
                  rw [hm1, List.getD_cons_succ]

theorem getD_append_left {α : Type} (d : α) :
    ∀ (l l2 : List α) (j : ℕ), j < l.length → (l ++ l2).getD j d = l.getD j d := by
  intro l
  induction l with
  | nil => intro l2 j h; simp at h
  | cons x xs ih =>
      intro l2 j h
      cases j with
      | zero => rfl
      | succ m =>
          have hm : m < xs.length := by
            simp only [List.length_cons] at h
            omega
          rw [List.cons_append, List.getD_cons_succ, List.getD_cons_succ]
          exact ih l2 m hm

theorem getD_append_self {α : Type} (d : α) :
    ∀ (l : List α) (x : α), (l ++ [x]).getD l.length d = x := by
  intro l
  induction l with
  | nil => intro x; rfl
  | cons y ys ih =>
      intro x
      rw [List.cons_append, show (y :: ys).length = ys.length + 1 from rfl,
        List.getD_cons_succ]
      exact ih x

theorem exitsAll_append_fresh (vs : List Vertex) (p : Point) :
    exitsAll (vs ++ [⟨[], [], p⟩]) = exitsAll vs := by
  simp [exitsAll]

theorem entersAll_append_fresh (vs : List Vertex) (p : Point) :
    entersAll (vs ++ [⟨[], [], p⟩]) = entersAll vs := by
  simp [entersAll]

theorem findVertex_exits (ε : ℚ) (vs : List Vertex) (p : Point) :
    exitsAll (findVertex ε vs p).2 = exitsAll vs := by
  rw [findVertex]
  cases h : vs.findIdx? (fun v => decide (AreNearPoint ε v.avg p)) with
  | some i => rfl
  | none => exact exitsAll_append_fresh vs p

theorem findVertex_enters (ε : ℚ) (vs : List Vertex) (p : Point) :
    entersAll (findVertex ε vs p).2 = entersAll vs := by
  rw [findVertex]
  cases h : vs.findIdx? (fun v => decide (AreNearPoint ε v.avg p)) with
  | some i => rfl
  | none => exact entersAll_append_fresh vs p

theorem findVertex_len_le (ε : ℚ) (vs : List Vertex) (p : Point) :
    vs.length ≤ (findVertex ε vs p).2.length := by
  rw [findVertex]
  cases h : vs.findIdx? (fun v => decide (AreNearPoint ε v.avg p)) with
  | some i => exact le_refl _
  | none => simp

theorem findIdx?_lt_length {α : Type} (p : α → Bool) :
    ∀ (l : List α) (j i : ℕ), l.findIdx? p j = some i → i < j + l.length := by
  intro l
  induction l with
  | nil => intro j i h; simp at h
  | cons x xs ih =>
      intro j i h
      rw [List.findIdx?_cons] at h
      by_cases hp : p x
      · rw [if_pos hp] at h
        cases h
        simp
      · rw [if_neg hp] at h
        have := ih (j + 1) i h
        simp only [List.length_cons]
        omega

theorem findVertex_fst_lt (ε : ℚ) (vs : List Vertex) (p : Point) :
    (findVertex ε vs p).1 < (findVertex ε vs p).2.length := by
  rw [findVertex]
  cases h : vs.findIdx? (fun v => decide (AreNearPoint ε v.avg p)) with
  | some i =>
      have := findIdx?_lt_length _ vs 0 i h
      simpa using this
  | none => simp

theorem findIdx?_pred {α : Type} [Inhabited α] (p : α → Bool) :
    ∀ (l : List α) (j i : ℕ), l.findIdx? p j = some i →
      j ≤ i ∧ p (l.getD (i - j) default) = true := by
  intro l
  induction l with
  | nil => intro j i h; simp at h
  | cons x xs ih =>
      intro j i h
      rw [List.findIdx?_cons] at h
      by_cases hp : p x
      · rw [if_pos hp] at h
        cases h
        exact ⟨le_refl _, by simpa using hp⟩
      · rw [if_neg hp] at h
        obtain ⟨h1, h2⟩ := ih (j + 1) i h
        refine ⟨by omega, ?_⟩
        have he : i - j = (i - (j + 1)) + 1 := by omega
        rw [he, List.getD_cons_succ]
        exact h2

theorem findVertex_getD (ε : ℚ) (vs : List Vertex) (p : Point) (k : ℕ)
    (hk : k < vs.length) :
    (findVertex ε vs p).2.getD k default = vs.getD k default := by
  rw [findVertex]
  cases hf : vs.findIdx? (fun v => decide (AreNearPoint ε v.avg p)) with
  | some i => rfl
  | none => exact getD_append_left default vs _ k hk

theorem findVertex_near (ε : ℚ) (hε : 0 ≤ ε) (vs : List Vertex) (p : Point) :
    AreNearPoint ε (((findVertex ε vs p).2.getD (findVertex ε vs p).1 default).avg) p := by
  rw [findVertex]
  cases hf : vs.findIdx? (fun v => decide (AreNearPoint ε v.avg p)) with
  | some i =>
      obtain ⟨-, hp⟩ := findIdx?_pred _ vs 0 i hf
      simp only [Nat.sub_zero] at hp
      exact of_decide_eq_true hp
  | none =>
      show AreNearPoint ε (((vs ++ [(⟨[], [], p⟩ : Vertex)]).getD vs.length default).avg) p
      rw [getD_append_self]
      exact areNearPoint_self ε hε p

theorem locVs_findVertex (ε : ℚ) (vs : List Vertex) (p : Point) (secs : List Section)
    (h : LocVs ε vs secs) : LocVs ε (findVertex ε vs p).2 secs := by
  rw [findVertex]
  cases hf : vs.findIdx? (fun v => decide (AreNearPoint ε v.avg p)) with
  | some i => exact h
  | none =>
      intro v hv
      rcases List.mem_append.mp hv with hmem | hmem
      · exact h v hmem
      · have hveq : v = ⟨[], [], p⟩ := List.mem_singleton.mp hmem
        subst hveq
        exact ⟨fun e he => absurd he (List.not_mem_nil e),
          fun e he => absurd he (List.not_mem_nil e)⟩

theorem locVs_secs_append (ε : ℚ) (vs : List Vertex) (secs : List Section) (r : Section)
    (h : LocVs ε vs secs) : LocVs ε vs (secs ++ [r]) := by
  intro v hv
  obtain ⟨h1, h2⟩ := h v hv
  constructor
  · intro e he
    obtain ⟨hlt, hn⟩ := h1 e he
    refine ⟨by simp; omega, ?_⟩
    rw [getD_append_left default secs [r] e.sectionIx hlt]
    exact hn
  · intro e he
    obtain ⟨hlt, hn⟩ := h2 e he
    refine ⟨by simp; omega, ?_⟩
    rw [getD_append_left default secs [r] e.sectionIx hlt]
    exact hn

theorem locVs_push_exit (ε : ℚ) (vs : List Vertex) (secs : List Section) (ix : ℕ)
    (e : Edge) (hsx : e.sectionIx < secs.length)
    (hnear : AreNearPoint ε ((vs.getD ix default).avg)
      ((secs.getD e.sectionIx default).fp))
    (h : LocVs ε vs secs) :
    LocVs ε (vs.set ix (addExit (vs.getD ix default) e)) secs := by
  intro v hv
  rcases List.mem_or_eq_of_mem_set hv with hmem | hveq
  · exact h v hmem
  · subst hveq
    by_cases hix : ix < vs.length
    · obtain ⟨h1, h2⟩ := h (vs.getD ix default) (getD_mem default vs ix hix)
      constructor
      · intro e2 he2
        rw [show (addExit (vs.getD ix default) e).exits
            = (vs.getD ix default).exits ++ [e] from rfl] at he2
        rcases List.mem_append.mp he2 with hm1 | hm1
        · exact h1 e2 hm1
        · have he2e : e2 = e := List.mem_singleton.mp hm1
          subst he2e
          exact ⟨hsx, hnear⟩
      · intro e2 he2
        exact h2 e2 he2
    · have hd : vs.getD ix default = default := getD_oob default vs ix (by omega)
      constructor
      · intro e2 he2
        rw [show (addExit (vs.getD ix default) e).exits
            = (vs.getD ix default).exits ++ [e] from rfl, hd] at he2
        rcases List.mem_append.mp he2 with hm1 | hm1
        · exact absurd hm1 (List.not_mem_nil e2)
        · have he2e : e2 = e := List.mem_singleton.mp hm1
          subst he2e
          exact ⟨hsx, hnear⟩
      · intro e2 he2
        rw [show (addExit (vs.getD ix default) e).enters
            = (vs.getD ix default).enters from rfl, hd] at he2
        exact absurd he2 (List.not_mem_nil e2)

theorem locVs_push_enter (ε : ℚ) (vs : List Vertex) (secs : List Section) (ix : ℕ)
    (e : Edge) (hsx : e.sectionIx < secs.length)
    (hnear : AreNearPoint ε ((vs.getD ix default).avg)
      ((secs.getD e.sectionIx default).tp))
    (h : LocVs ε vs secs) :
    LocVs ε (vs.set ix (addEnter (vs.getD ix default) e)) secs := by
  intro v hv
  rcases List.mem_or_eq_of_mem_set hv with hmem | hveq
  · exact h v hmem
  · subst hveq
    by_cases hix : ix < vs.length
    · obtain ⟨h1, h2⟩ := h (vs.getD ix default) (getD_mem default vs ix hix)
      constructor
      · intro e2 he2
        exact h1 e2 he2
      · intro e2 he2
        rw [show (addEnter (vs.getD ix default) e).enters
            = (vs.getD ix default).enters ++ [e] from rfl] at he2
        rcases List.mem_append.mp he2 with hm1 | hm1
        · exact h2 e2 hm1
        · have he2e : e2 = e := List.mem_singleton.mp hm1
          subst he2e
          exact ⟨hsx, hnear⟩
    · have hd : vs.getD ix default = default := getD_oob default vs ix (by omega)
      constructor
      · intro e2 he2
        rw [show (addEnter (vs.getD ix default) e).exits
            = (vs.getD ix default).exits from rfl, hd] at he2
        exact absurd he2 (List.not_mem_nil e2)
      · intro e2 he2
        rw [show (addEnter (vs.getD ix default) e).enters
            = (vs.getD ix default).enters ++ [e] from rfl, hd] at he2
        rcases List.mem_append.mp he2 with hm1 | hm1
        · exact absurd hm1 (List.not_mem_nil e2)
        · have he2e : e2 = e := List.mem_singleton.mp hm1
          subst he2e
          exact ⟨hsx, hnear⟩

theorem avg_getD_set_addExit (vs : List Vertex) (i j : ℕ) (e : Edge) :
    (((vs.set i (addExit (vs.getD i default) e)).getD j default).avg)
      = ((vs.getD j default).avg) := by
  rw [getD_set_split]
  by_cases hc : j = i ∧ j < vs.length
  · rw [if_pos hc, hc.1]
    rfl
  · rw [if_neg hc]

theorem avg_getD_set_addEnter (vs : List Vertex) (i j : ℕ) (e : Edge) :
    (((vs.set i (addEnter (vs.getD i default) e)).getD j default).avg)
      = ((vs.getD j default).avg) := by
  rw [getD_set_split]
  by_cases hc : j = i ∧ j < vs.length
  · rw [if_pos hc, hc.1]
    rfl
  · rw [if_neg hc]

theorem locCtx_vs_ext (ε : ℚ) (ctx : List Section) (vix : List ℕ)
    (vs vs2 : List Vertex) (hlen : vix.length = ctx.length)
    (hvb : ∀ v ∈ vix, v < vs.length)
    (havg : ∀ k, k < vs.length → ((vs2.getD k default).avg) = ((vs.getD k default).avg))
    (h : LocCtx ε ctx vix vs) : LocCtx ε ctx vix vs2 := by
  intro j hj
  have hjv : j < vix.length := by rw [hlen]; exact hj
  rw [havg _ (hvb _ (getD_mem 0 vix j hjv))]
  exact h j hj

theorem locCtx_erase (ε : ℚ) (ctx : List Section) (vix : List ℕ) (vs : List Vertex)
    (i : ℕ) (hi : i < ctx.length) (hlen : vix.length = ctx.length)
    (h : LocCtx ε ctx vix vs) :
    LocCtx ε (ctx.eraseIdx i) (vix.eraseIdx i) vs := by
  intro j hj
  have hje : j < ctx.length - 1 := by
    rw [List.length_eraseIdx_of_lt hi] at hj
    exact hj
  have hjv : j < (vix.eraseIdx i).length := by
    rw [List.length_eraseIdx_of_lt (by rw [hlen]; exact hi), hlen]
    exact hje
  rw [getD_eraseIdx_split default ctx i j hj, getD_eraseIdx_split 0 vix i j hjv]
  by_cases hc : j < i
  · rw [if_pos hc, if_pos hc]
    exact h j (by omega)
  · rw [if_neg hc, if_neg hc]
    exact h (j + 1) (by omega)

theorem splitSection_fp (env : Env) (ε : ℚ) (d : Dim) (s : Section) (cuts : List ℚ)
    (s1 : Section) (tails : List Section)
    (h : splitSection env ε d s cuts = some (s1, tails)) : s1.fp = s.fp := by
  rw [splitSection] at h
  split at h
  case h_2 => cases h
  case h_1 c0 c1 rest hps =>
    have h2 : (match setTo (env.curve s.curve) d s c1 with
        | some s2 => some (s2, pieces (env.curve s.curve) d s.curve (c1 :: rest))
        | none => none) = some (s1, tails) := h
    clear h
    split at h2
    case h_2 => cases h2
    case h_1 s2 hst =>
      cases h2
      rw [setTo] at hst
      split at hst
      case isTrue hle =>
        injection hst with h3
        rw [← h3]
      case isFalse => cases hst

theorem nbStep_fp (env : Env) (ε : ℚ) (d : Dim) (sc : CurveIx) (sf st0 : ℚ)
    (si : Iv) (i : ℕ) (ctx : List Section) (ts : List ℚ) (pushed : List Section)
    (ctx2 : List Section) (ts2 : List ℚ) (p2 : List Section)
    (h : nbStep env ε d sc sf st0 si i ctx ts pushed = some (ctx2, ts2, p2)) :
    ∀ j, ((ctx2.getD j default).fp) = ((ctx.getD j default).fp) := by
  simp only [nbStep] at h
  split at h
  · split at h
    case h_1 c2 tails hsp =>
      cases h
      intro j
      rw [getD_set_split]
      by_cases hc : j = i ∧ j < ctx.length
      · rw [if_pos hc, hc.1]
        exact splitSection_fp env ε d (ctx.getD i default) _ c2 tails hsp
      · rw [if_neg hc]
    case h_2 => cases h
  · cases h
    intro j
    rfl

theorem nbLoop_fp (env : Env) (ε : ℚ) (d : Dim) (sc : CurveIx) (sf st0 : ℚ)
    (si : Iv) (ctxIx : ℕ) :
    ∀ (rem i : ℕ) (ctx : List Section) (ts : List ℚ) (pushed : List Section)
      (ctx2 : List Section) (ts2 : List ℚ) (p2 : List Section),
      nbLoop env ε d sc sf st0 si ctxIx rem i ctx ts pushed = some (ctx2, ts2, p2) →
      ∀ j, ((ctx2.getD j default).fp) = ((ctx.getD j default).fp) := by
  intro rem
  induction rem with
  | zero =>
      intro i ctx ts pushed ctx2 ts2 p2 h j
      rw [nbLoop] at h
      cases h
      rfl
  | succ m ih =>
      intro i ctx ts pushed ctx2 ts2 p2 h j
      rw [nbLoop] at h
      split at h
      · exact ih (i + 1) ctx ts pushed ctx2 ts2 p2 h j
      · split at h
        next cx tx px hs =>
          have h1 := ih (i + 1) cx tx px ctx2 ts2 p2 h j
          rw [h1]
          exact nbStep_fp env ε d sc sf st0 si i ctx ts pushed cx tx px hs j
        next => cases h

theorem exitsAll_set_addExit (e : Edge) :
    ∀ (vs : List Vertex) (i : ℕ), i < vs.length →
      (exitsAll (vs.set i (addExit (vs.getD i default) e))).Perm (e :: exitsAll vs) ∧
      entersAll (vs.set i (addExit (vs.getD i default) e)) = entersAll vs := by
  intro vs
  induction vs with
  | nil => intro i h; simp at h
  | cons v rest ih =>
      intro i hi
      cases i with
      | zero =>
          constructor
          · show ((addExit v e).exits ++ exitsAll rest).Perm (e :: (v.exits ++ exitsAll rest))
            rw [addExit]
            rw [List.append_assoc, List.singleton_append]
            exact List.perm_middle
          · rfl
      | succ j =>
          have hj : j < rest.length := by simpa using hi
          obtain ⟨h1, h2⟩ := ih j hj
          rw [List.getD_cons_succ]
          constructor
          · show (v.exits ++ exitsAll (rest.set j _)).Perm (e :: (v.exits ++ exitsAll rest))
            refine ((h1.append_left v.exits).trans ?_)
            exact List.perm_middle
          · show v.enters ++ entersAll (rest.set j _) = v.enters ++ entersAll rest
            rw [h2]

theorem entersAll_set_addEnter (e : Edge) :
    ∀ (vs : List Vertex) (i : ℕ), i < vs.length →
      (entersAll (vs.set i (addEnter (vs.getD i default) e))).Perm (e :: entersAll vs) ∧
      exitsAll (vs.set i (addEnter (vs.getD i default) e)) = exitsAll vs := by
  intro vs
  induction vs with
  | nil => intro i h; simp at h
  | cons v rest ih =>
      intro i hi
      cases i with
      | zero =>
          constructor
          · show ((addEnter v e).enters ++ entersAll rest).Perm (e :: (v.enters ++ entersAll rest))
            rw [addEnter]
            rw [List.append_assoc, List.singleton_append]
            exact List.perm_middle
          · rfl
      | succ j =>
          have hj : j < rest.length := by simpa using hi
          obtain ⟨h1, h2⟩ := ih j hj
          rw [List.getD_cons_succ]
          constructor
          · show (v.enters ++ entersAll (rest.set j _)).Perm (e :: (v.enters ++ entersAll rest))
            refine ((h1.append_left v.enters).trans ?_)
            exact List.perm_middle
          · show v.exits ++ exitsAll (rest.set j _) = v.exits ++ exitsAll rest
            rw [h2]

theorem range_succ_perm (n : ℕ) : (List.range (n + 1)).Perm (n :: List.range n) := by
  rw [List.range_succ]
  have h := @List.perm_middle ℕ n (List.range n) []
  simp only [List.append_nil] at h
  exact h

theorem finishIndex_inv (ε lim : ℚ) (hε : 0 ≤ ε) (i : ℕ) (st : FinSt)
    (hi : i < st.ctx.length) (h : FinInv ε st) :
    FinInv ε (finishIndex ε lim i st) ∧ i ≤ (finishIndex ε lim i st).ctx.length := by
  have hlen := h.1
  have hvb := h.2.1
  have hex := h.2.2.1.1
  have hen := h.2.2.1.2
  have hlc := h.2.2.2.1
  have hlocv := h.2.2.2.2
  unfold finishIndex
  by_cases hf : FinishCond ε (st.ctx.getD i default) lim
  · rw [if_pos hf]
    rw [show ({ st.ctx.getD i default with
        windings := windLoop st.ctx i (st.w.map (fun _ => 0)) } : Section).tp
      = (st.ctx.getD i default).tp from rfl]
    by_cases hv : (findVertex ε st.vs (st.ctx.getD i default).tp).1 = st.vix.getD i 0
    · rw [if_pos hv]
      refine ⟨⟨hlen, ?_, ⟨?_, ?_⟩, ?_, ?_⟩, hi.le⟩
      · intro v hm
        exact lt_of_lt_of_le (hvb v hm) (findVertex_len_le ε st.vs _)
      · show ((exitsAll (findVertex ε st.vs _).2).map Edge.sectionIx).Perm _
        rw [findVertex_exits]
        exact hex
      · show ((entersAll (findVertex ε st.vs _).2).map Edge.sectionIx).Perm _
        rw [findVertex_enters]
        exact hen
      · show LocCtx ε st.ctx st.vix (findVertex ε st.vs (st.ctx.getD i default).tp).2
        refine locCtx_vs_ext ε st.ctx st.vix st.vs _ hlen hvb ?_ hlc
        intro k hk
        rw [findVertex_getD ε st.vs _ k hk]
      · show LocVs ε (findVertex ε st.vs (st.ctx.getD i default).tp).2 st.secs
        exact locVs_findVertex ε st.vs _ st.secs hlocv
    · rw [if_neg hv]
      have hlen3 : i < st.vix.length := by rw [hlen]; exact hi
      have hlv_mem : st.vix.getD i 0 ∈ st.vix := getD_mem 0 st.vix i hlen3
      have hlv : st.vix.getD i 0 < st.vs.length := hvb _ hlv_mem
      have hlel : st.vs.length ≤ (findVertex ε st.vs (st.ctx.getD i default).tp).2.length :=
        findVertex_len_le ε st.vs _
      have hlv2 : st.vix.getD i 0 < (findVertex ε st.vs (st.ctx.getD i default).tp).2.length :=
        lt_of_lt_of_le hlv hlel
      have hfst : (findVertex ε st.vs (st.ctx.getD i default).tp).1 <
          (findVertex ε st.vs (st.ctx.getD i default).tp).2.length :=
        findVertex_fst_lt ε st.vs _
      obtain ⟨p1, q1⟩ := exitsAll_set_addExit
        ⟨st.secs.length, (findVertex ε st.vs (st.ctx.getD i default).tp).1⟩
        (findVertex ε st.vs (st.ctx.getD i default).tp).2 (st.vix.getD i 0) hlv2
      obtain ⟨p2, q2⟩ := entersAll_set_addEnter
        ⟨st.secs.length, st.vix.getD i 0⟩
        ((findVertex ε st.vs (st.ctx.getD i default).tp).2.set (st.vix.getD i 0)
          (addExit ((findVertex ε st.vs (st.ctx.getD i default).tp).2.getD
            (st.vix.getD i 0) default)
            ⟨st.secs.length, (findVertex ε st.vs (st.ctx.getD i default).tp).1⟩))
        (findVertex ε st.vs (st.ctx.getD i default).tp).1 (by simpa using hfst)
      refine ⟨⟨?_, ?_, ⟨?_, ?_⟩, ?_, ?_⟩, ?_⟩
      · show (st.vix.eraseIdx i).length = (st.ctx.eraseIdx i).length
        rw [List.length_eraseIdx_of_lt hlen3, List.length_eraseIdx_of_lt hi, hlen]
      · intro v hm
        have hv1 := hvb v (List.mem_of_mem_eraseIdx hm)
        show v < (List.set _ _ _).length
        rw [List.length_set, List.length_set]
        exact lt_of_lt_of_le hv1 (findVertex_len_le ε st.vs _)
      · show ((exitsAll (List.set _ _ _)).map Edge.sectionIx).Perm
          (List.range (st.secs ++ [_]).length)
        rw [q2]
        have e1 := p1.map Edge.sectionIx
        rw [List.map_cons] at e1
        rw [findVertex_exits] at e1
        rw [List.length_append, List.length_singleton]
        refine e1.trans ?_
        refine (List.Perm.cons _ hex).trans ?_
        exact (range_succ_perm st.secs.length).symm
      · show ((entersAll (List.set _ _ _)).map Edge.sectionIx).Perm
          (List.range (st.secs ++ [_]).length)
        have e2 := p2.map Edge.sectionIx
        rw [List.map_cons] at e2
        rw [q1, findVertex_enters] at e2
        rw [List.length_append, List.length_singleton]
        refine e2.trans ?_
        refine (List.Perm.cons _ hen).trans ?_
        exact (range_succ_perm st.secs.length).symm
      · show LocCtx ε (st.ctx.eraseIdx i) (st.vix.eraseIdx i) _
        refine locCtx_vs_ext ε _ _ st.vs _ ?_ ?_ ?_
          (locCtx_erase ε st.ctx st.vix st.vs i hi hlen hlc)
        · rw [List.length_eraseIdx_of_lt hlen3, List.length_eraseIdx_of_lt hi, hlen]
        · intro v hm
          exact hvb v (List.mem_of_mem_eraseIdx hm)
        · intro k hk
          rw [avg_getD_set_addEnter, avg_getD_set_addExit,
            findVertex_getD ε st.vs _ k hk]
      · show LocVs ε _ (st.secs ++ [{ st.ctx.getD i default with
            windings := windLoop st.ctx i (st.w.map (fun _ => 0)) }])
        refine locVs_push_enter ε _ _ (findVertex ε st.vs (st.ctx.getD i default).tp).1
          ⟨st.secs.length, st.vix.getD i 0⟩ (by simp) ?_ ?_
        · rw [show (⟨st.secs.length, st.vix.getD i 0⟩ : Edge).sectionIx
              = st.secs.length from rfl, getD_append_self, avg_getD_set_addExit]
          exact findVertex_near ε hε st.vs (st.ctx.getD i default).tp
        · refine locVs_push_exit ε _ _ (st.vix.getD i 0)
            ⟨st.secs.length, (findVertex ε st.vs (st.ctx.getD i default).tp).1⟩
            (by simp) ?_ ?_
          · rw [show (⟨st.secs.length,
                (findVertex ε st.vs (st.ctx.getD i default).tp).1⟩ : Edge).sectionIx
              = st.secs.length from rfl, getD_append_self,
              findVertex_getD ε st.vs _ _ hlv]
            exact hlc i hi
          · exact locVs_secs_append ε _ _ _
              (locVs_findVertex ε st.vs _ st.secs hlocv)
      · show i ≤ (st.ctx.eraseIdx i).length
        rw [List.length_eraseIdx_of_lt hi]
        omega
  · rw [if_neg hf]
    exact ⟨⟨hlen, hvb, ⟨hex, hen⟩, hlc, hlocv⟩, hi.le⟩

theorem finishFrom_inv (ε lim : ℚ) (hε : 0 ≤ ε) :
    ∀ (n : ℕ) (st : FinSt), n ≤ st.ctx.length → FinInv ε st →
      FinInv ε (finishFrom ε lim n st) := by
  intro n
  induction n with
  | zero => intro st _ h; exact h
  | succ m ih =>
      intro st hn h
      have hi : m < st.ctx.length := hn
      obtain ⟨h1, h2⟩ := finishIndex_inv ε lim hε m st hi h
      exact ih (finishIndex ε lim m st) h2 h1

theorem lbGo_le (p : ℕ → Bool) :
    ∀ (fuel first len : ℕ), lbGo p fuel first len ≤ first + len := by
  intro fuel
  induction fuel with
  | zero => intro first len; simp [lbGo]
  | succ m ih =>
      intro first len
      rw [lbGo]
      by_cases h0 : len = 0
      · rw [if_pos h0]
        omega
      · rw [if_neg h0]
        by_cases hp : p (first + len / 2)
        · rw [if_pos hp]
          have := ih (first + len / 2 + 1) (len - len / 2 - 1)
          have hhalf : len / 2 < len := Nat.div_lt_self (Nat.pos_of_ne_zero h0) one_lt_two
          omega
        · rw [if_neg hp]
          have := ih first (len / 2)
          have hhalf : len / 2 ≤ len := Nat.div_le_self len 2
          omega

theorem lowerBound_le (comp : Section → Bool) (ctx : List Section) :
    lowerBound comp ctx ≤ ctx.length := by
  have := lbGo_le (fun i => comp (ctx.getD i default)) ctx.length 0 ctx.length
  simpa [lowerBound] using this

theorem nbStep_shape (env : Env) (ε : ℚ) (d : Dim) (sc : CurveIx) (sf st0 : ℚ)
    (si : Iv) (i : ℕ) (ctx : List Section) (ts : List ℚ) (pushed : List Section)
    (ctx2 : List Section) (ts2 : List ℚ) (p2 : List Section)
    (h : nbStep env ε d sc sf st0 si i ctx ts pushed = some (ctx2, ts2, p2)) :
    ctx2.length = ctx.length := by
  simp only [nbStep] at h
  split at h
  · split at h
    · cases h
      simp
    · cases h
  · cases h
    rfl

theorem nbLoop_ctx_length (env : Env) (ε : ℚ) (d : Dim) (sc : CurveIx) (sf st0 : ℚ)
    (si : Iv) (ctxIx : ℕ) :
    ∀ (rem i : ℕ) (ctx : List Section) (ts : List ℚ) (pushed : List Section)
      (ctx2 : List Section) (ts2 : List ℚ) (p2 : List Section),
      nbLoop env ε d sc sf st0 si ctxIx rem i ctx ts pushed = some (ctx2, ts2, p2) →
      ctx2.length = ctx.length := by
  intro rem
  induction rem with
  | zero =>
      intro i ctx ts pushed ctx2 ts2 p2 h
      rw [nbLoop] at h
      cases h
      rfl
  | succ m ih =>
      intro i ctx ts pushed ctx2 ts2 p2 h
      rw [nbLoop] at h
      split at h
      · exact ih (i + 1) ctx ts pushed ctx2 ts2 p2 h
      · split at h
        next cx tx px hs =>
          have h1 := ih (i + 1) cx tx px ctx2 ts2 p2 h
          rw [h1]
          exact nbStep_shape env ε d sc sf st0 si i ctx ts pushed cx tx px hs
        next => cases h

theorem stepNext_inv (_env : Env) (ε : ℚ) (_d : Dim) (hε : 0 ≤ ε) (s : Section)
    (fs : FinSt) (hfs : FinInv ε fs) (pending1 : List Section) (ctxIx : ℕ)
    (hctx : ctxIx ≤ fs.ctx.length) (ctx2 : List Section) (pushedN : List Section)
    (hnb : ctx2.length = (fs.ctx.insertIdx ctxIx s).length)
    (hfp : ∀ j, ((ctx2.getD j default).fp)
      = (((fs.ctx.insertIdx ctxIx s).getD j default).fp))
    (cand2 : Section) (tailsC : List Section)
    (hcfp : cand2.fp = ((ctx2.getD ctxIx default).fp)) :
    CoreInv ε ⟨pending1 ++ pushedN ++ tailsC, ctx2.set ctxIx cand2,
      fs.vix.insertIdx ctxIx (findVertex ε fs.vs s.fp).1,
      (findVertex ε fs.vs s.fp).2, fs.secs, fs.w⟩ := by
  have hvixle : ctxIx ≤ fs.vix.length := by rw [hfs.1]; exact hctx
  refine ⟨?_, ?_, ⟨?_, ?_⟩, ?_, ?_⟩
  · show (fs.vix.insertIdx ctxIx _).length = (ctx2.set ctxIx cand2).length
    rw [List.length_set, hnb, List.length_insertIdx _ _ hvixle,
      List.length_insertIdx _ _ hctx, hfs.1]
  · intro v hm
    have hm2 := (List.perm_insertIdx (findVertex ε fs.vs s.fp).1 fs.vix hvixle).subset hm
    show v < (findVertex ε fs.vs s.fp).2.length
    rcases List.mem_cons.mp hm2 with he | hmem
    · rw [he]
      exact findVertex_fst_lt ε fs.vs s.fp
    · exact lt_of_lt_of_le (hfs.2.1 v hmem) (findVertex_len_le ε fs.vs s.fp)
  · show ((exitsAll (findVertex ε fs.vs s.fp).2).map Edge.sectionIx).Perm _
    rw [findVertex_exits]
    exact hfs.2.2.1.1
  · show ((entersAll (findVertex ε fs.vs s.fp).2).map Edge.sectionIx).Perm _
    rw [findVertex_enters]
    exact hfs.2.2.1.2
  · show LocCtx ε (ctx2.set ctxIx cand2)
      (fs.vix.insertIdx ctxIx (findVertex ε fs.vs s.fp).1) (findVertex ε fs.vs s.fp).2
    intro j hj
    have hj2 : j < fs.ctx.length + 1 := by
      have hjl : j < (ctx2.set ctxIx cand2).length := hj
      rw [List.length_set, hnb, List.length_insertIdx _ _ hctx] at hjl
      exact hjl
    have hfp2 : (((ctx2.set ctxIx cand2).getD j default).fp)
        = (((fs.ctx.insertIdx ctxIx s).getD j default).fp) := by
      rw [getD_set_split]
      by_cases hc : j = ctxIx ∧ j < ctx2.length
      · rw [if_pos hc, hcfp, hc.1]
        exact hfp ctxIx
      · rw [if_neg hc]
        exact hfp j
    rw [hfp2, getD_insertIdx_split default s ctxIx fs.ctx j hctx,
      getD_insertIdx_split 0 (findVertex ε fs.vs s.fp).1 ctxIx fs.vix j hvixle]
    by_cases h1 : j < ctxIx
    · rw [if_pos h1, if_pos h1]
      have hjc : j < fs.ctx.length := by omega
      have hjv : j < fs.vix.length := by rw [hfs.1]; exact hjc
      rw [findVertex_getD ε fs.vs s.fp _ (hfs.2.1 _ (getD_mem 0 fs.vix j hjv))]
      exact hfs.2.2.2.1 j hjc
    · rw [if_neg h1, if_neg h1]
      by_cases h2 : j = ctxIx
      · rw [if_pos h2, if_pos h2]
        exact findVertex_near ε hε fs.vs s.fp
      · rw [if_neg h2, if_neg h2]
        have hjc : j - 1 < fs.ctx.length := by omega
        have hjv : j - 1 < fs.vix.length := by rw [hfs.1]; exact hjc
        rw [findVertex_getD ε fs.vs s.fp _ (hfs.2.1 _ (getD_mem 0 fs.vix (j - 1) hjv))]
        exact hfs.2.2.2.1 (j - 1) hjc
  · show LocVs ε (findVertex ε fs.vs s.fp).2 fs.secs
    exact locVs_findVertex ε fs.vs s.fp fs.secs hfs.2.2.2.2

theorem sweepStep_inv_next (env : Env) (ε : ℚ) (d : Dim) (hε : 0 ≤ ε) (c : SweepCore)
    (h : CoreInv ε c) (c2 : SweepCore) (tm tc : List Section)
    (hs : sweepStep env ε d c = .next c2 tm tc) : CoreInv ε c2 := by
  simp only [sweepStep] at hs
  split at hs
  · cases hs
  · split at hs
    · cases hs
    · split at hs
      · cases hs
      · split at hs
        · cases hs
        · cases hs
          refine stepNext_inv env ε d hε _ _ ?_ _ _ (lowerBound_le _ _) _ _ ?_ ?_ _ _ ?_
          · exact finishFrom_inv ε _ hε c.context.length _ (le_refl _)
              ⟨h.1, h.2.1, h.2.2⟩
          · exact nbLoop_ctx_length _ _ _ _ _ _ _ _ _ _ _ _ _ _ _ _ (by assumption)
          · intro j
            exact nbLoop_fp _ _ _ _ _ _ _ _ _ _ _ _ _ _ _ _ (by assumption) j
          · exact splitSection_fp _ _ _ _ _ _ _ (by assumption)

theorem sweepStep_inv_done (env : Env) (ε : ℚ) (d : Dim) (hε : 0 ≤ ε) (c : SweepCore)
    (h : CoreInv ε c) (g : Graph) (hs : sweepStep env ε d c = .done g) :
    EdgeInv g.vertices g.sections ∧ LocVs ε g.vertices g.sections := by
  simp only [sweepStep] at hs
  split at hs
  · cases hs
    have hfi := finishFrom_inv ε 0 hε c.context.length
      ⟨c.context, c.vix, c.vertices, c.sections, c.w⟩ (le_refl _)
      ⟨h.1, h.2.1, h.2.2⟩
    exact ⟨hfi.2.2.1, hfi.2.2.2.2⟩
  · split at hs
    · cases hs
      have hfi := finishFrom_inv ε
        ((c.pending.getD (popMinIdx d c.pending) default).fp.get d) hε c.context.length
        ⟨c.context, c.vix, c.vertices, c.sections, c.w⟩ (le_refl _)
        ⟨h.1, h.2.1, h.2.2⟩
      exact ⟨hfi.2.2.1, hfi.2.2.2.2⟩
    · split at hs
      · cases hs
      · split at hs
        · cases hs
        · cases hs

theorem initCore_inv (env : Env) (ε : ℚ) : CoreInv ε (initCore env ε) := by
  refine ⟨rfl, ?_, ⟨?_, ?_⟩, ?_, ?_⟩
  · intro v hm
    simp [initCore] at hm
  · show ((exitsAll []).map Edge.sectionIx).Perm (List.range ([] : List Section).length)
    simp [exitsAll]
  · show ((entersAll []).map Edge.sectionIx).Perm (List.range ([] : List Section).length)
    simp [entersAll]
  · intro i hi
    simp [initCore] at hi
  · intro v hv
    simp [initCore] at hv

theorem sweepRunT_edgeInv (env : Env) (ε : ℚ) (d : Dim) (hε : 0 ≤ ε) :
    ∀ (fuel : ℕ) (c : SweepCore) (tr : Trace) (g : Graph), CoreInv ε c →
      (sweepRunT env ε d fuel c tr).1 = RunOut.ok g →
      EdgeInv g.vertices g.sections ∧ LocVs ε g.vertices g.sections := by
  intro fuel
  induction fuel with
  | zero =>
      intro c tr g _ h
      simp [sweepRunT] at h
  | succ n ih =>
      intro c tr g hc h
      rw [sweepRunT] at h
      cases hs : sweepStep env ε d c with
      | done g2 =>
          rw [hs] at h
          simp only [] at h
          have hg : g2 = g := by simpa using h
          rw [← hg]
          exact sweepStep_inv_done env ε d hε c hc g2 hs
      | crash =>
          rw [hs] at h
          simp at h
      | next c2 tm tc =>
          rw [hs] at h
          exact ih c2 _ g (sweepStep_inv_next env ε d hε c hc c2 tm tc hs) h

/-- C7: whenever the sweep returns a graph, (i) the section indices of all
recorded exit edges and of all recorded entering edges are each a
permutation of the finished-section indices, so every finished section has
exactly one outgoing and one entering edge recorded and the total edge
count over all vertices is twice the finished-section count; and (ii)
every exit edge is recorded at a vertex whose point is within tolerance of
its section's leading point — the vertex the section starts at — and every
entering edge at a vertex within tolerance of its section's trailing
point — the vertex it ends at. -/
theorem c7_edge_invariant (env : Env) (ε : ℚ) (d : Dim) (fuel : ℕ) (tr : Trace)
    (g : Graph) (hε : 0 ≤ ε)
    (h : (sweepRunT env ε d fuel (initCore env ε) tr).1 = RunOut.ok g) :
    ((exitsAll g.vertices).map Edge.sectionIx).Perm (List.range g.sections.length) ∧
    ((entersAll g.vertices).map Edge.sectionIx).Perm (List.range g.sections.length) ∧
    (∀ i, i < g.sections.length →
      ((exitsAll g.vertices).map Edge.sectionIx).count i = 1 ∧
      ((entersAll g.vertices).map Edge.sectionIx).count i = 1) ∧
    ((exitsAll g.vertices).length + (entersAll g.vertices).length
      = 2 * g.sections.length) ∧
    (∀ v ∈ g.vertices, ∀ e ∈ v.exits, e.sectionIx < g.sections.length ∧
      AreNearPoint ε v.avg ((g.sections.getD e.sectionIx default).fp)) ∧
    (∀ v ∈ g.vertices, ∀ e ∈ v.enters, e.sectionIx < g.sections.length ∧
      AreNearPoint ε v.avg ((g.sections.getD e.sectionIx default).tp)) := by
  obtain ⟨⟨hex, hen⟩, hloc⟩ :=
    sweepRunT_edgeInv env ε d hε fuel (initCore env ε) tr g (initCore_inv env ε) h
  refine ⟨hex, hen, ?_, ?_, ?_, ?_⟩
  · intro i hi
    have hcr : (List.range g.sections.length).count i = 1 :=
      List.count_eq_one_of_mem (List.nodup_range _) (List.mem_range.mpr hi)
    exact ⟨hex.count_eq i ▸ hcr, hen.count_eq i ▸ hcr⟩
  · have l1 := hex.length_eq
    have l2 := hen.length_eq
    rw [List.length_map, List.length_range] at l1 l2
    omega
  · intro v hv
    exact (hloc v hv).1
  · intro v hv
    exact (hloc v hv).2

/-- The line `t ↦ (t, t)`. -/
def clW1 : Curve := ⟨fun q => ⟨q, q⟩, fun v _ => [v], fun _ => ⟨1, 1⟩, fun _ => []⟩

/-- The line `t ↦ (1 + t, 1 - t)`. -/
def clW2 : Curve := ⟨fun q => ⟨1 + q, 1 - q⟩, fun _ _ => [], fun _ => ⟨1, -1⟩, fun _ => []⟩

/-- A one-path store with the two-segment open polyline above. -/
def envC7 : Env := ⟨[[clW1, clW2]], fun _ _ _ _ => []⟩

/-- The graph the sweep produces on `envC7` (the second segment is the
last heap element and is discarded by the final `break`). -/
def gC7 : Graph :=
  ⟨[⟨[], [⟨0, 1⟩], ⟨0, 0⟩⟩, ⟨[⟨0, 0⟩], [], ⟨1, 1⟩⟩],
   [⟨⟨0, 0⟩, 0, 1, ⟨0, 0⟩, ⟨1, 1⟩, [0]⟩]⟩

/-- Witness for `c7_edge_invariant` on a concrete two-segment run: both
hypotheses hold at tolerance `eps0` and the strengthened conclusion follows. -/
theorem c7_edge_invariant_witness :
    (0 : ℚ) ≤ eps0 ∧
    (((exitsAll gC7.vertices).map Edge.sectionIx).Perm
        (List.range gC7.sections.length) ∧
      ((entersAll gC7.vertices).map Edge.sectionIx).Perm
        (List.range gC7.sections.length) ∧
      (∀ i, i < gC7.sections.length →
        ((exitsAll gC7.vertices).map Edge.sectionIx).count i = 1 ∧
        ((entersAll gC7.vertices).map Edge.sectionIx).count i = 1) ∧
      ((exitsAll gC7.vertices).length + (entersAll gC7.vertices).length
        = 2 * gC7.sections.length) ∧
      (∀ v ∈ gC7.vertices, ∀ e ∈ v.exits, e.sectionIx < gC7.sections.length ∧
        AreNearPoint eps0 v.avg ((gC7.sections.getD e.sectionIx default).fp)) ∧
      (∀ v ∈ gC7.vertices, ∀ e ∈ v.enters, e.sectionIx < gC7.sections.length ∧
        AreNearPoint eps0 v.avg ((gC7.sections.getD e.sectionIx default).tp))) :=
  ⟨by with_unfolding_all decide,
    c7_edge_invariant envC7 eps0 Dim.X 2 ⟨[], []⟩ gC7 (by with_unfolding_all decide)
      (by with_unfolding_all decide)⟩

/-! ## Claim C10: termination of the sweep loop -/

/-- The number of whole tolerance units in `q`: the potential of a
parameter extent. -/
def extN (ε q : ℚ) : ℕ := (Int.floor (q / ε)).toNat

/-- The potential of a live section: two units per tolerance unit of its
parameter extent, minus one. -/
def secW (ε : ℚ) (s : Section) : ℕ := 2 * extN ε |s.t - s.f| - 1

/-- The total potential of a list of sections. -/
def wsum (ε : ℚ) (l : List Section) : ℕ := (l.map (secW ε)).sum

/-- The termination measure of a sweep state: every iteration of the loop
strictly decreases it. -/
def measureM (ε : ℚ) (c : SweepCore) : ℕ :=
  wsum ε c.pending + wsum ε c.context + c.pending.length

theorem extN_pos (ε q : ℚ) (h0 : 0 < ε) (h : ε < q) : 1 ≤ extN ε q := by
  have h1 : (1 : ℚ) ≤ q / ε := by
    rw [le_div_iff₀ h0]
    linarith
  have h2 : (1 : ℤ) ≤ Int.floor (q / ε) := by
    rw [Int.le_floor]
    exact_mod_cast h1
  rw [extN]
  omega

theorem extN_add_le (ε x y : ℚ) (h0 : 0 < ε) (hx : 0 ≤ x) (hy : 0 ≤ y) :
    extN ε x + extN ε y ≤ extN ε (x + y) := by
  have hfx : (0 : ℤ) ≤ Int.floor (x / ε) := Int.floor_nonneg.mpr (div_nonneg hx h0.le)
  have hfy : (0 : ℤ) ≤ Int.floor (y / ε) := Int.floor_nonneg.mpr (div_nonneg hy h0.le)
  have hsum : Int.floor (x / ε) + Int.floor (y / ε) ≤ Int.floor ((x + y) / ε) := by
    rw [Int.le_floor]
    push_cast
    rw [add_div]
    exact add_le_add (Int.floor_le _) (Int.floor_le _)
  rw [extN, extN, extN]
  omega

theorem wsum_append (ε : ℚ) (l1 l2 : List Section) :
    wsum ε (l1 ++ l2) = wsum ε l1 + wsum ε l2 := by
  rw [wsum, wsum, wsum, List.map_append, List.sum_append]

theorem wsum_sublist (ε : ℚ) {l1 l2 : List Section} (h : l1.Sublist l2) :
    wsum ε l1 ≤ wsum ε l2 := by
  rw [wsum, wsum]
  exact List.Sublist.sum_le_sum (h.map (secW ε)) (fun a _ => Nat.zero_le a)

theorem wsum_eraseIdx (ε : ℚ) :
    ∀ (l : List Section) (i : ℕ), i < l.length →
      wsum ε (l.eraseIdx i) + secW ε (l.getD i default) = wsum ε l := by
  intro l
  induction l with
  | nil => intro i h; simp at h
  | cons x xs ih =>
      intro i hi
      cases i with
      | zero => simp [wsum, Nat.add_comm]
      | succ j =>
          have hj : j < xs.length := by simpa using hi
          have := ih j hj
          show wsum ε (x :: xs.eraseIdx j) + secW ε (xs.getD j default) = wsum ε (x :: xs)
          rw [show wsum ε (x :: xs.eraseIdx j) = secW ε x + wsum ε (xs.eraseIdx j) from rfl,
            show wsum ε (x :: xs) = secW ε x + wsum ε xs from rfl]
          omega

theorem wsum_set (ε : ℚ) :
    ∀ (l : List Section) (i : ℕ) (y : Section), i < l.length →
      wsum ε (l.set i y) + secW ε (l.getD i default) = wsum ε l + secW ε y := by
  intro l
  induction l with
  | nil => intro i y h; simp at h
  | cons x xs ih =>
      intro i y hi
      cases i with
      | zero =>
          show wsum ε (y :: xs) + secW ε x = wsum ε (x :: xs) + secW ε y
          rw [show wsum ε (y :: xs) = secW ε y + wsum ε xs from rfl,
            show wsum ε (x :: xs) = secW ε x + wsum ε xs from rfl]
          omega
      | succ j =>
          have hj : j < xs.length := by simpa using hi
          have := ih j y hj
          show wsum ε (x :: xs.set j y) + secW ε (xs.getD j default)
            = wsum ε (x :: xs) + secW ε y
          rw [show wsum ε (x :: xs.set j y) = secW ε x + wsum ε (xs.set j y) from rfl,
            show wsum ε (x :: xs) = secW ε x + wsum ε xs from rfl]
          omega

theorem wsum_insertIdx (ε : ℚ) (l : List Section) (i : ℕ) (y : Section)
    (h : i ≤ l.length) : wsum ε (l.insertIdx i y) = wsum ε l + secW ε y := by
  have hp := (List.perm_insertIdx y l h).map (secW ε)
  rw [wsum, hp.sum_eq]
  show secW ε y + wsum ε l = _
  omega

theorem popMinGo_lt (d : Dim) :
    ∀ (xs : List Section) (i best : ℕ) (bsec : Section), best < i →
      popMinGo d xs i best bsec < i + xs.length := by
  intro xs
  induction xs with
  | nil =>
      intro i best bsec h
      rw [popMinGo]
      omega
  | cons x rest ih =>
      intro i best bsec h
      rw [popMinGo]
      by_cases hl : LexoPoint x.fp bsec.fp d
      · rw [if_pos hl]
        have := ih (i + 1) i x (by omega)
        simp only [List.length_cons]
        omega
      · rw [if_neg hl]
        have := ih (i + 1) best bsec (by omega)
        simp only [List.length_cons]
        omega

theorem popMinIdx_lt (d : Dim) (x : Section) (xs : List Section) :
    popMinIdx d (x :: xs) < (x :: xs).length := by
  rw [popMinIdx]
  have := popMinGo_lt d xs 1 0 x (by omega)
  simp only [List.length_cons]
  omega

theorem uniqueNearGo_sublist (ε : ℚ) :
    ∀ (l : List ℚ) (last : ℚ), (uniqueNearGo ε last l).Sublist l := by
  intro l
  induction l with
  | nil => intro last; simp [uniqueNearGo]
  | cons y ys ih =>
      intro last
      rw [uniqueNearGo]
      by_cases hn : AreNear ε last y
      · rw [if_pos hn]
        exact (ih last).cons y
      · rw [if_neg hn]
        exact (ih y).cons₂ y

theorem uniqueNear_sublist (ε : ℚ) : ∀ (l : List ℚ), (uniqueNear ε l).Sublist l := by
  intro l
  cases l with
  | nil => simp [uniqueNear]
  | cons x xs =>
      rw [uniqueNear]
      exact (uniqueNearGo_sublist ε xs x).cons₂ x

theorem uniqueNearGo_chain (ε : ℚ) :
    ∀ (l : List ℚ) (last : ℚ),
      List.Chain' (fun a b => ¬ AreNear ε a b) (last :: uniqueNearGo ε last l) := by
  intro l
  induction l with
  | nil => intro last; simp [uniqueNearGo]
  | cons y ys ih =>
      intro last
      rw [uniqueNearGo]
      by_cases hn : AreNear ε last y
      · rw [if_pos hn]
        exact ih last
      · rw [if_neg hn]
        rw [List.chain'_cons]
        exact ⟨hn, ih y⟩

theorem uniqueNear_chain (ε : ℚ) (l : List ℚ) :
    List.Chain' (fun a b => ¬ AreNear ε a b) (uniqueNear ε l) := by
  cases l with
  | nil => simp [uniqueNear]
  | cons x xs =>
      rw [uniqueNear]
      exact uniqueNearGo_chain ε xs x

theorem chain_gap_of_sorted (ε : ℚ) (h0 : 0 ≤ ε) :
    ∀ (l : List ℚ), l.Sorted (fun a b => a ≤ b) →
      List.Chain' (fun a b => ¬ AreNear ε a b) l →
      List.Chain' (fun a b => ε < b - a) l := by
  intro l
  induction l with
  | nil => intro _ _; simp
  | cons a l2 ih =>
      intro hs hc
      cases l2 with
      | nil => simp
      | cons b l3 =>
          rw [List.chain'_cons] at hc
          rw [List.chain'_cons]
          have hab : a ≤ b := (List.sorted_cons.mp hs).1 b (by simp)
          refine ⟨?_, ih hs.of_cons hc.2⟩
          by_contra hle
          push_neg at hle
          exact hc.1 ⟨by linarith, by linarith⟩

theorem dropWhile_ne_head (f : ℚ) :
    ∀ (l : List ℚ) (x : ℚ) (rest : List ℚ),
      l.dropWhile (fun v => decide (v ≠ f)) = x :: rest → x = f := by
  intro l
  induction l with
  | nil => intro x rest h; simp at h
  | cons y ys ih =>
      intro x rest h
      rw [List.dropWhile_cons] at h
      by_cases hy : y = f
      · rw [if_neg (by simp [hy])] at h
        cases h
        exact hy
      · rw [if_pos (by simp [hy])] at h
        exact ih x rest h

theorem trimBack_leading (t : ℚ) (l : List ℚ) : List.IsPrefix (trimBack t l) l := by
  rw [trimBack]
  have h1 : (l.reverse.dropWhile (fun x => decide (x ≠ t))).IsSuffix l.reverse :=
    List.dropWhile_suffix _
  have h2 : ((l.reverse.dropWhile (fun x => decide (x ≠ t))).reverse).reverse.IsSuffix
      l.reverse := by
    rw [List.reverse_reverse]
    exact h1
  exact List.reverse_suffix.mp h2

theorem trimBack_last (t : ℚ) (l : List ℚ) (x : ℚ) (rest : List ℚ)
    (h : trimBack t l = x :: rest) : (x :: rest).getLast? = some t := by
  have h2 : ((x :: rest) : List ℚ).getLast? = (l.reverse.dropWhile
      (fun v => decide (v ≠ t))).head? := by
    rw [← h, trimBack, List.getLast?_reverse]
  cases hh : l.reverse.dropWhile (fun v => decide (v ≠ t)) with
  | nil =>
      rw [hh] at h2
      simp at h2
  | cons z zs =>
      have hz : z = t := dropWhile_ne_head t l.reverse z zs hh
      rw [hh] at h2
      rw [h2, hz]
      rfl

theorem isPrefix_head (x : ℚ) (rest l2 : List ℚ)
    (h : List.IsPrefix (x :: rest) l2) : l2.head? = some x := by
  obtain ⟨suf, rfl⟩ := h
  rfl

/-- The cleaned cut sequence of `process_splits`, when it has at least two
entries: it starts at `f`, ends at `t`, and consecutive entries are
separated by more than the tolerance, monotonically in the direction from
`f` to `t`. -/
theorem processSplits_spec (ε : ℚ) (h0 : 0 < ε) (cuts : List ℚ) (f t : ℚ)
    (c0 c1 : ℚ) (rest : List ℚ)
    (h : processSplits ε cuts f t = c0 :: c1 :: rest) :
    c0 = f ∧ (c0 :: c1 :: rest).getLast? = some t ∧
    (if f > t then List.Chain' (fun a b => ε < a - b) (c0 :: c1 :: rest)
     else List.Chain' (fun a b => ε < b - a) (c0 :: c1 :: rest)) := by
  have hu : List.Chain' (fun a b => ε < b - a)
      (uniqueNear ε (List.insertionSort (fun a b => a ≤ b) (cuts ++ [f, t]))) := by
    refine chain_gap_of_sorted ε h0.le _ ?_ (uniqueNear_chain ε _)
    exact (List.sorted_insertionSort _ _).sublist (uniqueNear_sublist ε _)
  have hv : if f > t then
      List.Chain' (fun a b => ε < a - b)
        ((uniqueNear ε (List.insertionSort (fun a b => a ≤ b) (cuts ++ [f, t]))).reverse)
    else List.Chain' (fun a b => ε < b - a)
        (uniqueNear ε (List.insertionSort (fun a b => a ≤ b) (cuts ++ [f, t]))) := by
    by_cases hft : f > t
    · rw [if_pos hft]
      rw [List.chain'_reverse]
      exact hu.imp (fun a b hab => hab)
    · rw [if_neg hft]
      exact hu
  have hps : processSplits ε cuts f t =
      trimBack t ((if f > t then
        (uniqueNear ε (List.insertionSort (fun a b => a ≤ b) (cuts ++ [f, t]))).reverse
      else uniqueNear ε (List.insertionSort (fun a b => a ≤ b) (cuts ++ [f, t]))).dropWhile
        (fun x => decide (x ≠ f))) := rfl
  rw [hps] at h
  refine ⟨?_, trimBack_last t _ c0 (c1 :: rest) h, ?_⟩
  · have hpre := trimBack_leading t ((if f > t then
        (uniqueNear ε (List.insertionSort (fun a b => a ≤ b) (cuts ++ [f, t]))).reverse
      else uniqueNear ε (List.insertionSort (fun a b => a ≤ b) (cuts ++ [f, t]))).dropWhile
        (fun x => decide (x ≠ f)))
    rw [h] at hpre
    have hh := isPrefix_head c0 (c1 :: rest) _ hpre
    cases hd : ((if f > t then
        (uniqueNear ε (List.insertionSort (fun a b => a ≤ b) (cuts ++ [f, t]))).reverse
      else uniqueNear ε (List.insertionSort (fun a b => a ≤ b) (cuts ++ [f, t]))).dropWhile
        (fun x => decide (x ≠ f))) with
    | nil => rw [hd] at hh; simp at hh
    | cons z zs =>
        rw [hd] at hh
        have hz : z = f := dropWhile_ne_head f _ z zs hd
        simp only [List.head?_cons] at hh
        cases hh
        exact hz.symm ▸ rfl
  · by_cases hft : f > t
    · rw [if_pos hft]
      rw [if_pos hft] at hv h
      have hsfx : List.Chain' (fun a b => ε < a - b)
          (List.dropWhile (fun x => decide (x ≠ f))
            (uniqueNear ε (List.insertionSort (fun a b => a ≤ b)
              (cuts ++ [f, t]))).reverse) :=
        hv.suffix (List.dropWhile_suffix _)
      rw [← h]
      exact List.Chain'.prefix hsfx (trimBack_leading t _)
    · rw [if_neg hft]
      rw [if_neg hft] at hv h
      have hsfx : List.Chain' (fun a b => ε < b - a)
          (List.dropWhile (fun x => decide (x ≠ f))
            (uniqueNear ε (List.insertionSort (fun a b => a ≤ b)
              (cuts ++ [f, t])))) :=
        hv.suffix (List.dropWhile_suffix _)
      rw [← h]
      exact List.Chain'.prefix hsfx (trimBack_leading t _)

/-- The total absolute gap of a cut sequence. -/
def gapsAbs : List ℚ → ℚ
  | a :: b :: rest => |b - a| + gapsAbs (b :: rest)
  | _ => 0

theorem gapsAbs_nonneg : ∀ (l : List ℚ), 0 ≤ gapsAbs l := by
  intro l
  induction l with
  | nil => simp [gapsAbs]
  | cons a l2 ih =>
      cases l2 with
      | nil => simp [gapsAbs]
      | cons b l3 =>
          rw [gapsAbs]
          have := abs_nonneg (b - a)
          have h2 : 0 ≤ gapsAbs (b :: l3) := ih
          linarith

theorem secW_mkSection (ε : ℚ) (c : Curve) (d : Dim) (cix : CurveIx) (a b : ℚ) :
    secW ε (mkSection c d cix a b) = 2 * extN ε |b - a| - 1 := by
  rw [mkSection]
  by_cases hl : LexoPoint (c.pointAt b) (c.pointAt a) d
  · rw [if_pos hl]
    show 2 * extN ε |a - b| - 1 = _
    rw [abs_sub_comm]
  · rw [if_neg hl]
    rfl

theorem pieces_bound (ε : ℚ) (h0 : 0 < ε) (c : Curve) (d : Dim) (cix : CurveIx) :
    ∀ (l : List ℚ) (c1 : ℚ),
      List.Chain' (fun a b => ε < |b - a|) (c1 :: l) →
      wsum ε (pieces c d cix (c1 :: l)) + (pieces c d cix (c1 :: l)).length
        ≤ 2 * extN ε (gapsAbs (c1 :: l)) := by
  intro l
  induction l with
  | nil =>
      intro c1 _
      simp [pieces, wsum]
  | cons c2 l2 ih =>
      intro c1 hc
      rw [List.chain'_cons] at hc
      have hgap := hc.1
      have ih2 := ih c2 hc.2
      have he1 : 1 ≤ extN ε |c2 - c1| := extN_pos ε _ h0 hgap
      have hadd : extN ε |c2 - c1| + extN ε (gapsAbs (c2 :: l2))
          ≤ extN ε (|c2 - c1| + gapsAbs (c2 :: l2)) :=
        extN_add_le ε _ _ h0 (abs_nonneg _) (gapsAbs_nonneg _)
      show wsum ε (mkSection c d cix c1 c2 :: pieces c d cix (c2 :: l2))
          + (mkSection c d cix c1 c2 :: pieces c d cix (c2 :: l2)).length
        ≤ 2 * extN ε (gapsAbs (c1 :: c2 :: l2))
      rw [show wsum ε (mkSection c d cix c1 c2 :: pieces c d cix (c2 :: l2))
          = secW ε (mkSection c d cix c1 c2) + wsum ε (pieces c d cix (c2 :: l2)) from rfl]
      rw [secW_mkSection, List.length_cons]
      rw [show gapsAbs (c1 :: c2 :: l2) = |c2 - c1| + gapsAbs (c2 :: l2) from rfl]
      omega

theorem chain_asc_le_last (ε : ℚ) (h0 : 0 < ε) :
    ∀ (l : List ℚ) (a tl : ℚ),
      List.Chain' (fun x y => ε < y - x) (a :: l) →
      (a :: l).getLast? = some tl → a ≤ tl := by
  intro l
  induction l with
  | nil =>
      intro a tl _ hl
      simp at hl
      exact le_of_eq hl
  | cons b l2 ih =>
      intro a tl hc hl
      rw [List.chain'_cons] at hc
      have h1 := hc.1
      have h2 := ih b tl hc.2 (by simpa using hl)
      linarith

theorem chain_desc_last_le (ε : ℚ) (h0 : 0 < ε) :
    ∀ (l : List ℚ) (a tl : ℚ),
      List.Chain' (fun x y => ε < x - y) (a :: l) →
      (a :: l).getLast? = some tl → tl ≤ a := by
  intro l
  induction l with
  | nil =>
      intro a tl _ hl
      simp at hl
      exact le_of_eq hl.symm
  | cons b l2 ih =>
      intro a tl hc hl
      rw [List.chain'_cons] at hc
      have h1 := hc.1
      have h2 := ih b tl hc.2 (by simpa using hl)
      linarith

theorem gapsAbs_asc (ε : ℚ) (h0 : 0 < ε) :
    ∀ (l : List ℚ) (a tl : ℚ),
      List.Chain' (fun x y => ε < y - x) (a :: l) →
      (a :: l).getLast? = some tl → gapsAbs (a :: l) = tl - a := by
  intro l
  induction l with
  | nil =>
      intro a tl _ hl
      simp at hl
      rw [hl]
      show (0 : ℚ) = tl - tl
      ring
  | cons b l2 ih =>
      intro a tl hc hl
      rw [List.chain'_cons] at hc
      have h1 := hc.1
      have h2 := ih b tl hc.2 (by simpa using hl)
      show |b - a| + gapsAbs (b :: l2) = tl - a
      rw [h2, abs_of_pos (by linarith)]
      ring

theorem gapsAbs_desc (ε : ℚ) (h0 : 0 < ε) :
    ∀ (l : List ℚ) (a tl : ℚ),
      List.Chain' (fun x y => ε < x - y) (a :: l) →
      (a :: l).getLast? = some tl → gapsAbs (a :: l) = a - tl := by
  intro l
  induction l with
  | nil =>
      intro a tl _ hl
      simp at hl
      rw [hl]
      show (0 : ℚ) = tl - tl
      ring
  | cons b l2 ih =>
      intro a tl hc hl
      rw [List.chain'_cons] at hc
      have h1 := hc.1
      have h2 := ih b tl hc.2 (by simpa using hl)
      show |b - a| + gapsAbs (b :: l2) = a - tl
      rw [h2, abs_of_neg (by linarith)]
      ring

/-- Splitting a section never increases the total potential: the mutated
head piece plus all pushed tail pieces, counting one extra unit per pushed
piece, stay within the potential of the original section. -/
theorem splitSection_decrease (env : Env) (ε : ℚ) (h0 : 0 < ε) (d : Dim) (s : Section)
    (cuts : List ℚ) (s1 : Section) (tails : List Section)
    (h : splitSection env ε d s cuts = some (s1, tails)) :
    secW ε s1 + wsum ε tails + tails.length ≤ secW ε s := by
  rw [splitSection] at h
  split at h
  case h_2 => cases h
  case h_1 c0 c1 rest hps =>
    have h2 : (match setTo (env.curve s.curve) d s c1 with
        | some s2 => some (s2, pieces (env.curve s.curve) d s.curve (c1 :: rest))
        | none => none) = some (s1, tails) := h
    clear h
    split at h2
    case h_2 => cases h2
    case h_1 s2 hst =>
      cases h2
      obtain ⟨hc0, hlast, hchain⟩ := processSplits_spec ε h0 cuts s.f s.t c0 c1 rest hps
      have hlast2 : (c1 :: rest).getLast? = some s.t := by
        rw [← List.getLast?_cons_cons (a := c0)]
        exact hlast
      rw [setTo] at hst
      split at hst
      case isFalse => cases hst
      case isTrue hle =>
        have hs2 : s1 = { s with t := c1, tp := (env.curve s.curve).pointAt c1 } := by
          injection hst with h3
          exact h3.symm
        have hsecW2 : secW ε s1 = 2 * extN ε |c1 - s.f| - 1 := by
          rw [hs2]
          rfl
        by_cases hdir : s.f > s.t
        · rw [if_pos hdir] at hchain
          rw [List.chain'_cons] at hchain
          have hg1 : ε < c0 - c1 := hchain.1
          have hc1t : s.t ≤ c1 := chain_desc_last_le ε h0 rest c1 s.t hchain.2 hlast2
          have habs : List.Chain' (fun a b => ε < |b - a|) (c1 :: rest) :=
            hchain.2.imp (fun a b hab => by
              rw [abs_of_neg (by linarith)]
              linarith)
          have hpb := pieces_bound ε h0 (env.curve s.curve) d s.curve rest c1 habs
          have hga := gapsAbs_desc ε h0 rest c1 s.t hchain.2 hlast2
          rw [hga] at hpb
          have he1 : 1 ≤ extN ε (s.f - c1) := by
            refine extN_pos ε _ h0 ?_
            rw [hc0] at hg1
            linarith
          have hadd : extN ε (s.f - c1) + extN ε (c1 - s.t) ≤ extN ε (s.f - s.t) := by
            have := extN_add_le ε (s.f - c1) (c1 - s.t) h0
              (by rw [hc0] at hg1; linarith) (by linarith)
            rw [show s.f - c1 + (c1 - s.t) = s.f - s.t by ring] at this
            exact this
          have habs1 : |c1 - s.f| = s.f - c1 := by
            rw [abs_of_neg (by rw [hc0] at hg1; linarith)]
            ring
          have habs2 : |s.t - s.f| = s.f - s.t := by
            rw [abs_of_neg (by linarith)]
            ring
          rw [hsecW2, habs1, secW, habs2]
          omega
        · rw [if_neg hdir] at hchain
          push_neg at hdir
          rw [List.chain'_cons] at hchain
          have hg1 : ε < c1 - c0 := hchain.1
          have hc1t : c1 ≤ s.t := chain_asc_le_last ε h0 rest c1 s.t hchain.2 hlast2
          have habs : List.Chain' (fun a b => ε < |b - a|) (c1 :: rest) :=
            hchain.2.imp (fun a b hab => by
              rw [abs_of_pos (by linarith)]
              exact hab)
          have hpb := pieces_bound ε h0 (env.curve s.curve) d s.curve rest c1 habs
          have hga := gapsAbs_asc ε h0 rest c1 s.t hchain.2 hlast2
          rw [hga] at hpb
          have he1 : 1 ≤ extN ε (c1 - s.f) := by
            refine extN_pos ε _ h0 ?_
            rw [hc0] at hg1
            linarith
          have hadd : extN ε (c1 - s.f) + extN ε (s.t - c1) ≤ extN ε (s.t - s.f) := by
            have := extN_add_le ε (c1 - s.f) (s.t - c1) h0
              (by rw [hc0] at hg1; linarith) (by linarith)
            rw [show c1 - s.f + (s.t - c1) = s.t - s.f by ring] at this
            exact this
          have habs1 : |c1 - s.f| = c1 - s.f := by
            rw [abs_of_pos (by rw [hc0] at hg1; linarith)]
          have habs2 : |s.t - s.f| = s.t - s.f := by
            have hft : s.f < c1 := by rw [hc0] at hg1; linarith
            rw [abs_of_pos (by linarith)]
          rw [hsecW2, habs1, secW, habs2]
          omega

theorem finishIndex_ctx_cases (ε lim : ℚ) (i : ℕ) (st : FinSt) :
    (finishIndex ε lim i st).ctx = st.ctx ∨
    (finishIndex ε lim i st).ctx = st.ctx.eraseIdx i := by
  unfold finishIndex
  by_cases hf : FinishCond ε (st.ctx.getD i default) lim
  · rw [if_pos hf]
    rw [show ({ st.ctx.getD i default with
        windings := windLoop st.ctx i (st.w.map (fun _ => 0)) } : Section).tp
      = (st.ctx.getD i default).tp from rfl]
    by_cases hv : (findVertex ε st.vs (st.ctx.getD i default).tp).1 = st.vix.getD i 0
    · rw [if_pos hv]
      left
      rfl
    · rw [if_neg hv]
      right
      rfl
  · rw [if_neg hf]
    left
    rfl

theorem finishIndex_wsum (ε lim : ℚ) (i : ℕ) (st : FinSt) :
    wsum ε (finishIndex ε lim i st).ctx ≤ wsum ε st.ctx := by
  rcases finishIndex_ctx_cases ε lim i st with h | h
  · rw [h]
  · rw [h]
    exact wsum_sublist ε (List.eraseIdx_sublist st.ctx i)

theorem finishFrom_wsum (ε lim : ℚ) :
    ∀ (n : ℕ) (st : FinSt), wsum ε (finishFrom ε lim n st).ctx ≤ wsum ε st.ctx := by
  intro n
  induction n with
  | zero => intro st; exact le_refl _
  | succ m ih =>
      intro st
      exact le_trans (ih (finishIndex ε lim m st)) (finishIndex_wsum ε lim m st)

theorem nbStep_decrease (env : Env) (ε : ℚ) (d : Dim) (sc : CurveIx) (sf st0 : ℚ)
    (si : Iv) (h0 : 0 < ε) (i : ℕ) (ctx : List Section) (ts : List ℚ)
    (pushed : List Section) (ctx2 : List Section) (ts2 : List ℚ) (p2 : List Section)
    (hi : i < ctx.length)
    (h : nbStep env ε d sc sf st0 si i ctx ts pushed = some (ctx2, ts2, p2)) :
    wsum ε ctx2 + wsum ε p2 + p2.length
      ≤ wsum ε ctx + wsum ε pushed + pushed.length := by
  simp only [nbStep] at h
  split at h
  · split at h
    case h_1 c2 tails hsp =>
      cases h
      have hd := splitSection_decrease env ε h0 d (ctx.getD i default) _ c2 tails hsp
      have hset := wsum_set ε ctx i c2 hi
      rw [wsum_append, List.length_append]
      omega
    case h_2 => cases h
  · cases h
    exact le_refl _

theorem nbLoop_decrease (env : Env) (ε : ℚ) (d : Dim) (sc : CurveIx) (sf st0 : ℚ)
    (si : Iv) (ctxIx : ℕ) (h0 : 0 < ε) :
    ∀ (rem i : ℕ) (ctx : List Section) (ts : List ℚ) (pushed : List Section)
      (ctx2 : List Section) (ts2 : List ℚ) (p2 : List Section),
      i + rem ≤ ctx.length →
      nbLoop env ε d sc sf st0 si ctxIx rem i ctx ts pushed = some (ctx2, ts2, p2) →
      wsum ε ctx2 + wsum ε p2 + p2.length
        ≤ wsum ε ctx + wsum ε pushed + pushed.length := by
  intro rem
  induction rem with
  | zero =>
      intro i ctx ts pushed ctx2 ts2 p2 _ h
      rw [nbLoop] at h
      cases h
      exact le_refl _
  | succ m ih =>
      intro i ctx ts pushed ctx2 ts2 p2 hlen h
      rw [nbLoop] at h
      split at h
      · exact ih (i + 1) ctx ts pushed ctx2 ts2 p2 (by omega) h
      · split at h
        next cx tx px hstep =>
          have hsh := nbStep_shape env ε d sc sf st0 si i ctx ts pushed cx tx px hstep
          have h1 := ih (i + 1) cx tx px ctx2 ts2 p2 (by omega) h
          have h2 := nbStep_decrease env ε d sc sf st0 si h0 i ctx ts pushed cx tx px
            (by omega) hstep
          omega
        next => cases h

theorem stepNext_decrease (env : Env) (ε : ℚ) (d : Dim) (h0 : 0 < ε)
    (pend ctx : List Section) (x : Section) (xs : List Section) (hpend : pend = x :: xs)
    (fsctx : List Section) (hfsctx : wsum ε fsctx ≤ wsum ε ctx)
    (s : Section) (hsdef : s = pend.getD (popMinIdx d pend) default)
    (ctxIx : ℕ) (hctxIx : ctxIx ≤ fsctx.length)
    (ctx2 : List Section) (ts : List ℚ) (pushedN : List Section)
    (hnb : nbLoop env ε d s.curve s.f s.t (mkIv (s.fp.get d.other) (s.tp.get d.other))
      ctxIx (fsctx.insertIdx ctxIx s).length 0 (fsctx.insertIdx ctxIx s) [] []
      = some (ctx2, ts, pushedN))
    (cand2 : Section) (tailsC : List Section)
    (hsplit : splitSection env ε d (ctx2.getD ctxIx default) ts = some (cand2, tailsC))
    (vix1 : List ℕ) (vs1 : List Vertex) (secs1 : List Section) (w1 : List ℤ) :
    measureM ε ⟨pend.eraseIdx (popMinIdx d pend) ++ pushedN ++ tailsC,
      ctx2.set ctxIx cand2, vix1, vs1, secs1, w1⟩
      < wsum ε pend + wsum ε ctx + pend.length := by
  have hidx : popMinIdx d pend < pend.length := by
    rw [hpend]
    exact popMinIdx_lt d x xs
  have e1 := wsum_eraseIdx ε pend (popMinIdx d pend) hidx
  rw [← hsdef] at e1
  have e2 := List.length_eraseIdx_of_lt hidx
  have e4 := wsum_insertIdx ε fsctx ctxIx s hctxIx
  have e5 := nbLoop_decrease env ε d s.curve s.f s.t
    (mkIv (s.fp.get d.other) (s.tp.get d.other)) ctxIx h0
    (fsctx.insertIdx ctxIx s).length 0 (fsctx.insertIdx ctxIx s) [] []
    ctx2 ts pushedN (by omega) hnb
  have hctxIx2 : ctxIx < ctx2.length := by
    have hl := nbLoop_ctx_length env ε d s.curve s.f s.t
      (mkIv (s.fp.get d.other) (s.tp.get d.other)) ctxIx
      (fsctx.insertIdx ctxIx s).length 0 (fsctx.insertIdx ctxIx s) [] []
      ctx2 ts pushedN hnb
    rw [hl, List.length_insertIdx _ _ hctxIx]
    omega
  have e6 := splitSection_decrease env ε h0 d (ctx2.getD ctxIx default) ts cand2 tailsC hsplit
  have e7 := wsum_set ε ctx2 ctxIx cand2 hctxIx2
  show wsum ε (pend.eraseIdx (popMinIdx d pend) ++ pushedN ++ tailsC)
      + wsum ε (ctx2.set ctxIx cand2)
      + (pend.eraseIdx (popMinIdx d pend) ++ pushedN ++ tailsC).length
    < wsum ε pend + wsum ε ctx + pend.length
  rw [wsum_append, wsum_append, List.length_append, List.length_append]
  have e8 : wsum ε ([] : List Section) = 0 := rfl
  rw [e8] at e5
  simp only [List.length_nil] at e5
  omega

theorem sweepStep_decrease (env : Env) (ε : ℚ) (d : Dim) (c : SweepCore) (h0 : 0 < ε)
    (c2 : SweepCore) (tm tc : List Section)
    (hs : sweepStep env ε d c = .next c2 tm tc) :
    measureM ε c2 < measureM ε c := by
  simp only [sweepStep] at hs
  split at hs
  · cases hs
  next x xs hpend =>
    split at hs
    · cases hs
    · split at hs
      · cases hs
      · split at hs
        · cases hs
        · cases hs
          exact stepNext_decrease env ε d h0 c.pending c.context x xs hpend _
            (finishFrom_wsum ε _ c.context.length _) _ rfl _ (lowerBound_le _ _)
            _ _ _ (by assumption) _ _ (by assumption) _ _ _ _

theorem sweepRunT_no_fuelOut (env : Env) (ε : ℚ) (d : Dim) (h0 : 0 < ε) :
    ∀ (n : ℕ) (c : SweepCore) (tr : Trace), measureM ε c < n →
      (sweepRunT env ε d n c tr).1 ≠ RunOut.fuelOut := by
  intro n
  induction n with
  | zero =>
      intro c tr h
      exact absurd h (Nat.not_lt_zero _)
  | succ m ih =>
      intro c tr h
      rw [sweepRunT]
      cases hs : sweepStep env ε d c with
      | done g => simp
      | crash => simp
      | next c2 tm tc =>
          have hd := sweepStep_decrease env ε d c h0 c2 tm tc hs
          exact ih c2 _ (by omega)

/-- C10: for every input and every positive tolerance, the sweep loop
terminates — a finite iteration budget (one more than the initial
measure) suffices to drain the pending heap, because each iteration pops
one section and any pieces it pushes back are strictly smaller,
tolerance-separated sub-intervals whose total potential is below the
potential consumed. -/
theorem c10_sweep_terminates (env : Env) (ε : ℚ) (d : Dim) (tr : Trace) (h0 : 0 < ε) :
    ∃ fuel, (sweepRunT env ε d fuel (initCore env ε) tr).1 ≠ RunOut.fuelOut :=
  ⟨measureM ε (initCore env ε) + 1,
    sweepRunT_no_fuelOut env ε d h0 _ (initCore env ε) tr (Nat.lt_succ_self _)⟩

/-- The line `t ↦ (t, t)` again, for the termination witness. -/
def clT1 : Curve := ⟨fun q => ⟨q, q⟩, fun v _ => [v], fun _ => ⟨1, 1⟩, fun _ => []⟩

/-- A one-curve store for the termination witness. -/
def envC10 : Env := ⟨[[clT1]], fun _ _ _ _ => []⟩

/-- Witness for `c10_sweep_terminates` at the reference tolerance. -/
theorem c10_sweep_terminates_witness :
    (0 : ℚ) < eps0 ∧
    ∃ fuel, (sweepRunT envC10 eps0 Dim.X fuel (initCore envC10 eps0) ⟨[], []⟩).1
      ≠ RunOut.fuelOut :=
  ⟨by norm_num [eps0],
    c10_sweep_terminates envC10 eps0 Dim.X ⟨[], []⟩ (by norm_num [eps0])⟩

end SweepGraph
